import Mathlib

/-!
Verification development for the `x_xy` randomized-motion-generation (RCMG)
and sensor-simulation core.

Shallow embedding conventions:

* Machine floats are modelled as exact rationals (`ℚ`) wherever the source
  computes with plain arithmetic and comparisons; results that involve
  transcendental functions (`cos`, `π`, `tan`, `sqrt`) live in `ℝ`.
* `jax.random` draws are modelled as explicit oracle streams: each call to
  `random.uniform(key, minval=a, maxval=b)` becomes `a + u * (b - a)` for an
  oracle value `u` (with `u ∈ [0,1)` as a hypothesis where needed), each
  `random.choice` of a sign becomes a boolean oracle.  Key splitting
  corresponds to indexing the oracle streams by step / attempt counters.
* `jax.lax.while_loop` is modelled as a fuel-indexed iteration; the fuel used
  by top-level definitions is large enough that, under the draw-validity
  hypotheses of the theorems, the loop always exits because its condition
  became false (this is proved, not assumed).
* `jax.lax.dynamic_update_slice_in_dim` / `dynamic_index_in_dim` clamp the
  index so that the access stays in bounds; the embedding reproduces that
  clamping.
-/

set_option maxRecDepth 4000

namespace XXY

/-- `jnp.searchsorted(xp, x, side="right")` on a sorted list: the number of
elements that are `≤ x`. -/
def searchsortedRight (xp : List ℚ) (x : ℚ) : ℕ :=
  xp.countP (fun a => decide (a ≤ x))

/-- `jnp.clip(v, lo, hi)` on natural-number indices. -/
def clipIdx (v lo hi : ℕ) : ℕ := min (max v lo) hi

/-- `jnp.arange(T, step=Ts)`: the grid `0, Ts, 2*Ts, …` of all multiples of
`Ts` that are `< T` (length `⌈T/Ts⌉`). -/
def arange (T Ts : ℚ) : List ℚ :=
  (List.range (Int.toNat ⌈T / Ts⌉)).map (fun k : ℕ => (k : ℚ) * Ts)

/-- The two-point cosine blend `cos_interpolate(x1, x2, alpha)` from
`cosInterpolate` in `_random.py`:
`(x1 + x2)/2 + (x1 - x2)/2 * cos(alpha * pi)`. -/
noncomputable def cosBlend (x1 x2 : ℚ) (alpha : ℚ) : ℝ :=
  ((x1 + x2 : ℚ) : ℝ) / 2 + ((x1 - x2 : ℚ) : ℝ) / 2 * Real.cos ((alpha : ℝ) * Real.pi)

/-- `cosInterpolate(x, xp, fp)` from `_random.py`, evaluated at one query
point `x`:

* `i = clip(searchsorted(xp, x, side="right"), 1, len(xp) - 1)`,
* `dx = xp[i] - xp[i-1]`, `alpha = (x - xp[i-1]) / dx`,
* `f = fp[i]` when `dx == 0`, else the cosine blend of `fp[i-1], fp[i]`,
* queries with `x > xp[-1]` return `fp[-1]`. -/
noncomputable def cosInterpolate (xp fp : List ℚ) (x : ℚ) : ℝ :=
  let n := xp.length
  let i := clipIdx (searchsortedRight xp x) 1 (n - 1)
  let dx := xp.getD i 0 - xp.getD (i - 1) 0
  let alpha := (x - xp.getD (i - 1) 0) / dx
  let f : ℝ := if dx = 0 then ((fp.getD i 0 : ℚ) : ℝ)
               else cosBlend (fp.getD (i - 1) 0) (fp.getD i 0) alpha
  if xp.getD (n - 1) 0 < x then ((fp.getD (n - 1) 0 : ℚ) : ℝ) else f

/-- Modelled from the spec: the repository module `x_xy/maths.py` is not part
of the provided sources; per the spec, `wrap_to_pi` wraps an angle to the
interval `(−π, π]`. -/
noncomputable def wrap_to_pi (x : ℝ) : ℝ :=
  x - 2 * Real.pi * ⌈(x - Real.pi) / (2 * Real.pi)⌉

/-! ### The inner rejection loop of `_resolve_range_of_motion`

The loop state of `jax.lax.while_loop(cond_fn, body_fn, (key, prev_phi, 0))`
is modelled as `(next_phi, i) : ℚ × ℕ` (the key becomes the oracle stream
`cand` of candidate values produced by `_next_phi`, indexed by attempt). -/

/-- `cond_fn` of the inner loop of `_resolve_range_of_motion`:
`(i == 0) | ~(break_if_true1 | break_if_true2)` where `break_if_true1` is
`delta_ang_min <= |next_phi - prev_phi| <= delta_ang_max` and
`break_if_true2` is `i > max_iter`. -/
def romCond (delta_ang_min delta_ang_max prev_phi : ℚ) (max_iter : ℕ)
    (s : ℚ × ℕ) : Prop :=
  s.2 = 0 ∨
    ¬ ((delta_ang_min ≤ |s.1 - prev_phi| ∧ |s.1 - prev_phi| ≤ delta_ang_max) ∨
       max_iter < s.2)

instance (dmin dmax prev : ℚ) (cap : ℕ) (s : ℚ × ℕ) :
    Decidable (romCond dmin dmax prev cap s) := by
  unfold romCond; infer_instance

/-- `body_fn` of the inner loop of `_resolve_range_of_motion`: draw the next
candidate (the attempt-indexed oracle `cand` stands for `_next_phi`) and
increment the attempt counter. -/
def romStep (cand : ℕ → ℚ) (s : ℚ × ℕ) : ℚ × ℕ :=
  (cand s.2, s.2 + 1)

/-- Fuel-indexed unfolding of the `jax.lax.while_loop` inside
`_resolve_range_of_motion`. -/
def romGo (dmin dmax prev : ℚ) (cap : ℕ) (cand : ℕ → ℚ) :
    ℕ → ℚ × ℕ → ℚ × ℕ
  | 0, s => s
  | fuel + 1, s =>
      if romCond dmin dmax prev cap s then
        romGo dmin dmax prev cap cand fuel (romStep cand s)
      else s

/-- The inner rejection loop of `_resolve_range_of_motion`, started at
`(prev_phi, 0)`.  The fuel `cap + 2` is provably sufficient: the loop always
exits because `cond_fn` became false.  The first component is the returned
angle (`while_loop(...)[1]` in the source), the second is the number of
candidate attempts that were drawn. -/
def resolveRomLoop (dmin dmax prev : ℚ) (cap : ℕ) (cand : ℕ → ℚ) : ℚ × ℕ :=
  romGo dmin dmax prev cap cand (cap + 2) (prev, 0)

/-- `_next_phi` in the `range_of_motion == False` branch:
`prev_phi + sign * uniform(dang_min, dang_max) * dt` with the sign and the
uniform draw given by attempt-indexed oracles (`u j ∈ [0,1)`). -/
def nextPhiNoRom (dang_min dang_max dt prev : ℚ) (sign : ℕ → Bool)
    (u : ℕ → ℚ) (j : ℕ) : ℚ :=
  prev + (if sign j then 1 else -1) * (dang_min + u j * (dang_max - dang_min)) * dt

/-! ### The inner rejection loop of `random_position_over_time`

State `(i, x) : ℕ × ℚ`; the quantities `t`, `t_pre`, `x_pre` are fixed for
one run of the inner loop.  The position bounds are time-dependent
(`_to_float(..., t_pre)`), hence functions of time. -/

/-- `cond_fn_inner` of `random_position_over_time`:
continue while not `((dpos < dpos_max) & (dpos > dpos_min) & (x >= pos_min)
& (x <= pos_max)) | (i > max_it)` where `dpos = |x - x_pre| / (t - t_pre)`. -/
def posCond (pos_min pos_max dpos_min dpos_max : ℚ → ℚ) (t t_pre x_pre : ℚ)
    (max_it : ℕ) (s : ℕ × ℚ) : Prop :=
  ¬ ((|s.2 - x_pre| / (t - t_pre) < dpos_max t_pre ∧
      dpos_min t_pre < |s.2 - x_pre| / (t - t_pre) ∧
      pos_min t_pre ≤ s.2 ∧ s.2 ≤ pos_max t_pre) ∨
     max_it < s.1)

instance (pmin pmax dmin dmax : ℚ → ℚ) (t t_pre x_pre : ℚ) (cap : ℕ)
    (s : ℕ × ℚ) : Decidable (posCond pmin pmax dmin dmax t t_pre x_pre cap s) := by
  unfold posCond; infer_instance

/-- `body_fn_inner` of `random_position_over_time`: when `i > max_it` the
candidate displacement is forced to `0.0`, otherwise
`dx = sign * uniform(dpos_min(t_pre), dpos_max(t_pre)) * dt` with
`dt = t - t_pre`; then `x = x_pre + dx`. -/
def posStep (dpos_min dpos_max : ℚ → ℚ) (t t_pre x_pre : ℚ) (max_it : ℕ)
    (sign : ℕ → Bool) (u : ℕ → ℚ) (s : ℕ × ℚ) : ℕ × ℚ :=
  let dt := t - t_pre
  let dx : ℚ :=
    if max_it < s.1 then 0
    else (if sign s.1 then 1 else -1) *
         (dpos_min t_pre + u s.1 * (dpos_max t_pre - dpos_min t_pre)) * dt
  (s.1 + 1, x_pre + dx)

/-- Fuel-indexed unfolding of the inner `jax.lax.while_loop` of
`random_position_over_time`. -/
def posGo (pmin pmax dmin dmax : ℚ → ℚ) (t t_pre x_pre : ℚ) (cap : ℕ)
    (sign : ℕ → Bool) (u : ℕ → ℚ) : ℕ → ℕ × ℚ → ℕ × ℚ
  | 0, s => s
  | fuel + 1, s =>
      if posCond pmin pmax dmin dmax t t_pre x_pre cap s then
        posGo pmin pmax dmin dmax t t_pre x_pre cap sign u fuel
          (posStep dmin dmax t t_pre x_pre cap sign u s)
      else s

/-- The inner rejection loop of `random_position_over_time`, started at
`(0, x0)` (`x0` is the stale `x` carried in from the outer loop; the zero
resets the `max_it` count, as the source comment says).  Fuel `cap + 2` is
provably sufficient. -/
def posInnerLoop (pmin pmax dmin dmax : ℚ → ℚ) (t t_pre x_pre x0 : ℚ)
    (cap : ℕ) (sign : ℕ → Bool) (u : ℕ → ℚ) : ℕ × ℚ :=
  posGo pmin pmax dmin dmax t t_pre x_pre cap sign u (cap + 2) (0, x0)

/-! ### Loop-exit lemmas -/

theorem romGo_counter_le (dmin dmax prev : ℚ) (cap : ℕ) (cand : ℕ → ℚ) :
    ∀ fuel s, s.2 ≤ cap + 1 →
      (romGo dmin dmax prev cap cand fuel s).2 ≤ cap + 1 := by
  intro fuel
  induction fuel with
  | zero => intro s h; simpa [romGo] using h
  | succ n ih =>
      intro s h
      by_cases hc : romCond dmin dmax prev cap s
      · have hs : s.2 ≤ cap := by
          rcases hc with h0 | hnb
          · omega
          · push_neg at hnb; omega
        have := ih (romStep cand s) (by simp [romStep]; omega)
        simpa [romGo, hc] using this
      · simpa [romGo, hc] using h

theorem romGo_exit (dmin dmax prev : ℚ) (cap : ℕ) (cand : ℕ → ℚ) :
    ∀ fuel s, cap + 2 ≤ fuel + s.2 →
      ¬ romCond dmin dmax prev cap (romGo dmin dmax prev cap cand fuel s) := by
  intro fuel
  induction fuel with
  | zero =>
      intro s h
      simp only [romGo]
      intro hc
      rcases hc with h0 | hnb
      · omega
      · exact hnb (Or.inr (by omega))
  | succ n ih =>
      intro s h
      by_cases hc : romCond dmin dmax prev cap s
      · have := ih (romStep cand s) (by simp [romStep]; omega)
        simpa [romGo, hc] using this
      · simp [romGo, hc]

theorem romGo_counter_ge (dmin dmax prev : ℚ) (cap : ℕ) (cand : ℕ → ℚ) :
    ∀ fuel s, s.2 ≤ (romGo dmin dmax prev cap cand fuel s).2 := by
  intro fuel
  induction fuel with
  | zero => intro s; simp [romGo]
  | succ n ih =>
      intro s
      by_cases hc : romCond dmin dmax prev cap s
      · have := ih (romStep cand s)
        simp only [romStep] at this
        simp only [romGo, hc, if_true]
        calc s.2 ≤ s.2 + 1 := by omega
          _ ≤ _ := this
      · simp [romGo, hc]

theorem posGo_counter_le (pmin pmax dmin dmax : ℚ → ℚ) (t t_pre x_pre : ℚ)
    (cap : ℕ) (sign : ℕ → Bool) (u : ℕ → ℚ) :
    ∀ fuel s, s.1 ≤ cap + 1 →
      (posGo pmin pmax dmin dmax t t_pre x_pre cap sign u fuel s).1 ≤ cap + 1 := by
  intro fuel
  induction fuel with
  | zero => intro s h; simpa [posGo] using h
  | succ n ih =>
      intro s h
      by_cases hc : posCond pmin pmax dmin dmax t t_pre x_pre cap s
      · have hs : s.1 ≤ cap := by
          unfold posCond at hc; push_neg at hc; omega
        have := ih (posStep dmin dmax t t_pre x_pre cap sign u s)
          (by simp [posStep]; omega)
        simpa [posGo, hc] using this
      · simpa [posGo, hc] using h

theorem posGo_exit (pmin pmax dmin dmax : ℚ → ℚ) (t t_pre x_pre : ℚ)
    (cap : ℕ) (sign : ℕ → Bool) (u : ℕ → ℚ) :
    ∀ fuel s, cap + 2 ≤ fuel + s.1 →
      ¬ posCond pmin pmax dmin dmax t t_pre x_pre cap
        (posGo pmin pmax dmin dmax t t_pre x_pre cap sign u fuel s) := by
  intro fuel
  induction fuel with
  | zero =>
      intro s h
      simp only [posGo]
      intro hc
      exact hc (Or.inr (by omega))
  | succ n ih =>
      intro s h
      by_cases hc : posCond pmin pmax dmin dmax t t_pre x_pre cap s
      · have := ih (posStep dmin dmax t t_pre x_pre cap sign u s)
          (by simp [posStep]; omega)
        simpa [posGo, hc] using this
      · simp [posGo, hc]

/-- **C2**: For every input (any bounds, any previous angle/position, any
oracle draws), the inner rejection loop of the angle sampler
(`_resolve_range_of_motion`, cap `max_iter`) and of the position sampler
(cap `max_it`) terminates — the `while`-condition is false at the returned
state, so the loop exited on its own — after drawing at most `max_iter + 1`
(respectively `max_it + 1`) candidate attempts (the counter component counts
one per executed loop body). -/
theorem C2_inner_loops_terminate :
    (∀ (dmin dmax prev : ℚ) (cap : ℕ) (cand : ℕ → ℚ),
      ¬ romCond dmin dmax prev cap (resolveRomLoop dmin dmax prev cap cand) ∧
      (resolveRomLoop dmin dmax prev cap cand).2 ≤ cap + 1) ∧
    (∀ (pmin pmax dmin dmax : ℚ → ℚ) (t t_pre x_pre x0 : ℚ) (cap : ℕ)
       (sign : ℕ → Bool) (u : ℕ → ℚ),
      ¬ posCond pmin pmax dmin dmax t t_pre x_pre cap
          (posInnerLoop pmin pmax dmin dmax t t_pre x_pre x0 cap sign u) ∧
      (posInnerLoop pmin pmax dmin dmax t t_pre x_pre x0 cap sign u).1 ≤ cap + 1) := by
  constructor
  · intro dmin dmax prev cap cand
    refine ⟨romGo_exit dmin dmax prev cap cand (cap + 2) (prev, 0) (by simp), ?_⟩
    exact romGo_counter_le dmin dmax prev cap cand (cap + 2) (prev, 0) (by simp)
  · intro pmin pmax dmin dmax t t_pre x_pre x0 cap sign u
    refine ⟨posGo_exit pmin pmax dmin dmax t t_pre x_pre cap sign u (cap + 2) (0, x0)
      (by simp), ?_⟩
    exact posGo_counter_le pmin pmax dmin dmax t t_pre x_pre cap sign u (cap + 2)
      (0, x0) (by simp)

/-- **C5**, counterexample: the first candidate attempt is *not* always
accepted.  With `delta_ang_min = 2`, `delta_ang_max = 3`, `prev_phi = 0`,
`max_iter = 2` and a candidate stream whose first draw is `1` (violating the
bounds) and whose later draws are `-1`, the loop returns `-1`, not the first
candidate `1`. -/
theorem C5_counterexample :
    ¬ (2 ≤ |(1 : ℚ) - 0| ∧ |(1 : ℚ) - 0| ≤ 3) ∧
    (resolveRomLoop 2 3 0 2 (fun j => if j = 0 then 1 else -1)).1 ≠ 1 := by
  constructor
  · norm_num
  · norm_num [resolveRomLoop, romGo, romCond, romStep, abs_of_nonneg, abs_of_nonpos]

/-- **C5**, amended: the `(i == 0)` term of the loop condition only forces at
least one candidate to be drawn; the first candidate is returned immediately
iff it satisfies the delta bounds or `max_iter = 0`, and a first candidate
violating the bounds (with `max_iter ≥ 1`) triggers at least one further
draw. -/
theorem C5_amended (dmin dmax prev : ℚ) (cap : ℕ) (cand : ℕ → ℚ) :
    1 ≤ (resolveRomLoop dmin dmax prev cap cand).2 ∧
    ((dmin ≤ |cand 0 - prev| ∧ |cand 0 - prev| ≤ dmax) ∨ cap = 0 →
      resolveRomLoop dmin dmax prev cap cand = (cand 0, 1)) ∧
    (¬ (dmin ≤ |cand 0 - prev| ∧ |cand 0 - prev| ≤ dmax) → 1 ≤ cap →
      2 ≤ (resolveRomLoop dmin dmax prev cap cand).2) := by
  have hcond0 : romCond dmin dmax prev cap (prev, 0) := Or.inl rfl
  refine ⟨?_, ?_, ?_⟩
  · unfold resolveRomLoop
    have h1 : romGo dmin dmax prev cap cand (cap + 2) (prev, 0)
        = romGo dmin dmax prev cap cand (cap + 1) (cand 0, 1) := by
      simp [romGo, hcond0, romStep]
    rw [h1]
    exact romGo_counter_ge dmin dmax prev cap cand (cap + 1) (cand 0, 1)
  · intro h
    unfold resolveRomLoop
    have h1 : romGo dmin dmax prev cap cand (cap + 2) (prev, 0)
        = romGo dmin dmax prev cap cand (cap + 1) (cand 0, 1) := by
      simp [romGo, hcond0, romStep]
    have hstop : ¬ romCond dmin dmax prev cap (cand 0, 1) := by
      intro hc
      rcases hc with h0 | hnb
      · exact Nat.one_ne_zero h0
      · rcases h with hb | hc0
        · exact hnb (Or.inl hb)
        · exact hnb (Or.inr (show cap < 1 by omega))
    rw [h1]
    simp [romGo, hstop]
  · intro hb hcap
    unfold resolveRomLoop
    have h1 : romGo dmin dmax prev cap cand (cap + 2) (prev, 0)
        = romGo dmin dmax prev cap cand (cap + 1) (cand 0, 1) := by
      simp [romGo, hcond0, romStep]
    have hcont : romCond dmin dmax prev cap (cand 0, 1) := by
      refine Or.inr fun hnot => ?_
      rcases hnot with hb1 | hb2
      · exact hb hb1
      · exact absurd (show cap < 1 from hb2) (by omega)
    have h2 : romGo dmin dmax prev cap cand (cap + 1) (cand 0, 1)
        = romGo dmin dmax prev cap cand cap (cand 1, 2) := by
      simp [romGo, hcont, romStep]
    rw [h1, h2]
    calc (2 : ℕ) ≤ _ := le_refl 2
      _ ≤ _ := romGo_counter_ge dmin dmax prev cap cand cap (cand 1, 2)

/-- **C5**, witness for the amended theorem at concrete inputs. -/
theorem C5_amended_witness :
    (1 ≤ (resolveRomLoop 0 1 0 1 (fun _ => 1/2)).2 ∧
      resolveRomLoop 0 1 0 1 (fun _ => 1/2) = (1/2, 1)) ∧
    2 ≤ (resolveRomLoop 2 3 0 1 (fun _ => 1)).2 := by
  refine ⟨⟨(C5_amended 0 1 0 1 (fun _ => 1/2)).1, ?_⟩, ?_⟩
  · exact (C5_amended 0 1 0 1 (fun _ => 1/2)).2.1
      (Or.inl (by constructor <;> norm_num [abs_of_nonneg]))
  · exact (C5_amended 2 3 0 1 (fun _ => 1)).2.2 (by norm_num [abs_of_nonneg]) le_rfl

/-- **C6**: evaluation of the position-sampler inner loop at a failing input.
With `max_it = 0`, `t - t_pre = 1`, `x_pre = 0`, velocity band `(1, 2)`,
position band `[10, 20]` (never satisfiable) and first draw
`dx = 1 * (1 + 1/2 * (2 - 1)) * 1 = 3/2`, the loop exhausts its cap and
returns `x = 3/2 ≠ 0 = x_pre`: the forced accept keeps the *last sampled*
candidate.  The `i > max_it` zero-displacement branch of `body_fn_inner` is
unreachable (the loop condition already exits whenever `i > max_it`), so the
position is *not* held at `x_pre`, contradicting the claim. -/
theorem C6_forced_accept_not_zero_displacement :
    posInnerLoop (fun _ => 10) (fun _ => 20) (fun _ => 1) (fun _ => 2)
        1 0 0 0 0 (fun _ => true) (fun _ => 1/2) = (1, 3/2) ∧
    ((1 : ℕ), (3/2 : ℚ)).2 ≠ 0 := by
  constructor
  · norm_num [posInnerLoop, posGo, posCond, posStep, abs_of_nonneg]
  · norm_num

/-! ### Preallocated trajectory buffers -/

/-- The preallocated axis-0 length `int(T // t_min) + 1` used by both
samplers (`jnp.zeros((int(T // t_min) + 1, 2))`). -/
def preallocRows (t_min T : ℚ) : ℕ := (⌊T / t_min⌋).toNat + 1

/-- `_PREALLOCATION_WARN_LIMIT` from `_random.py`. -/
def PREALLOCATION_WARN_LIMIT : ℕ := 6000

/-- `_warn_huge_preallocation(t_min, T)`: whether the warning fires
(`N > _PREALLOCATION_WARN_LIMIT` with `N = int(T // t_min) + 1`). -/
def warnHugePreallocation (t_min T : ℚ) : Prop :=
  PREALLOCATION_WARN_LIMIT < preallocRows t_min T

instance (t_min T : ℚ) : Decidable (warnHugePreallocation t_min T) := by
  unfold warnHugePreallocation; infer_instance

/-- The freshly allocated buffer `jnp.zeros((n, 2)).at[0, 1].set(v0)`. -/
def initBuf (n : ℕ) (v0 : ℚ) : List (ℚ × ℚ) :=
  (List.replicate n ((0 : ℚ), (0 : ℚ))).set 0 (0, v0)

/-- `jax.lax.dynamic_update_slice_in_dim(buf, row, start_index=i, axis=0)`
for a single row: JAX clamps the start index so the write stays in
bounds. -/
def dynUpdateRow (buf : List (ℚ × ℚ)) (i : ℕ) (v : ℚ × ℚ) : List (ℚ × ℚ) :=
  buf.set (min i (buf.length - 1)) v

/-- The tail-overwrite
`jnp.where((arange(len(buf)) < end)[:, None], buf, dynamic_index_in_dim(buf, end - 1))`
performed by both samplers after the outer loop (`dynamic_index_in_dim`
clamps its index to the valid range). -/
def fillTail (buf : List (ℚ × ℚ)) (e : ℕ) : List (ℚ × ℚ) :=
  (List.range buf.length).map (fun j =>
    if j < e then buf.getD j (0, 0)
    else buf.getD (min (e - 1) (buf.length - 1)) (0, 0))

/-! ### Randomized-interpolation CDFs -/

/-- `jnp.cumsum` on rationals, threading the running sum. -/
def cumsumFrom (acc : ℚ) : List ℚ → List ℚ
  | [] => []
  | x :: t => (acc + x) :: cumsumFrom (acc + x) t

/-- `jnp.cumsum(l)`. -/
def cumsum (l : List ℚ) : List ℚ := cumsumFrom 0 l

/-- `jnp.cumsum` of a 0/1 mask. -/
def cumsumMask (acc : ℕ) : List Bool → List ℕ
  | [] => []
  | b :: t =>
      (acc + if b then 1 else 0) :: cumsumMask (acc + if b then 1 else 0) t

/-- `_generate_cdf` with `cdf_bins_max=None` (`_generate_cdf_min_eq_max`):
`samples = uniform(key, (cdf_bins,), minval=1e-6, maxval=1.0)` (oracle `u`),
prepend `0.0`, cumulative-sum, and divide by the final value. -/
def generateCdfFixed (cdf_bins : ℕ) (u : ℕ → ℚ) : List ℚ :=
  let samples := (List.range cdf_bins).map u
  let montonous := cumsum (0 :: samples)
  montonous.map (fun v => v / montonous.getLastD 0)

/-- `_generate_cdf` with `cdf_bins_max` given (`_generate_cdf_min_uneq_max`):
the drawn bin count `cdf_bins = randint(dy_min, dy_max + 1)` and the random
permutation enter only through the permuted 0/1 `mask` (modelled as an
oracle list; when relating to a drawn count `b` the theorems hypothesise
`mask.length = dy_max` and `mask.count true = b`);
`dy = uniform(key, (dy_max,), minval=1e-6, maxval=1.0)` (oracle `u`),
`dy = dy[cumsum(mask) - 1]` (negative index `-1` wraps to `dy_max - 1`),
prepend `0.0`, cumulative-sum, and divide by the final value. -/
def generateCdfRandom (dy_max : ℕ) (mask : List Bool) (u : ℕ → ℚ) : List ℚ :=
  let dy := (List.range dy_max).map u
  let idxs := (cumsumMask 0 mask).map (fun c => if c = 0 then dy_max - 1 else c - 1)
  let dy2 := idxs.map (fun j => dy.getD j 0)
  let montonous := cumsum (0 :: dy2)
  montonous.map (fun v => v / montonous.getLastD 0)

/-- `_generate_cdf(cdf_bins_min, cdf_bins_max)`: dispatch on whether
`cdf_bins_max is None`. -/
def generateCdf (cdf_bins_min : ℕ) (cdf_bins_max : Option ℕ)
    (mask : List Bool) (u : ℕ → ℚ) : List ℚ :=
  match cdf_bins_max with
  | none => generateCdfFixed cdf_bins_min u
  | some dy_max => generateCdfRandom dy_max mask u

/-- `_biject_alpha(alpha, cdf)` from `_random.py`:
`cdf_dx = 1 / (len(cdf) - 1)`, `left_idx = int(alpha // cdf_dx)`,
`a = (alpha - left_idx * cdf_dx) / cdf_dx`, linear interpolation inside the
CDF. -/
def bijectAlpha (alpha : ℚ) (cdf : List ℚ) : ℚ :=
  let cdf_dx : ℚ := 1 / ((cdf.length : ℚ) - 1)
  let left_idx := (⌊alpha / cdf_dx⌋).toNat
  let a := (alpha - left_idx * cdf_dx) / cdf_dx
  (1 - a) * cdf.getD left_idx 0 + a * cdf.getD (left_idx + 1) 0

/-- The interpolation method string of `interpolate(...)`; any string other
than `"cosine"` and `"linear"` raises `NotImplementedError` at trace time
and is therefore outside the embedded domain. -/
inductive InterpMethod where
  | cosine : InterpMethod
  | linear : InterpMethod

/-- One query point of the `_interpolate` closure returned by
`interpolate(cdf_bins_min, cdf_bins_max, method)`: same bracketing as
`cosInterpolate`, but `alpha` is warped through the CDF generated from the
per-segment key `consume[i-1]` (`cdfFor (i-1)` is the CDF generated for
segment `i-1`). -/
noncomputable def interpolateValue (method : InterpMethod)
    (cdfFor : ℕ → List ℚ) (xp fp : List ℚ) (x : ℚ) : ℝ :=
  let n := xp.length
  let i := clipIdx (searchsortedRight xp x) 1 (n - 1)
  let dx := xp.getD i 0 - xp.getD (i - 1) 0
  let alpha := (x - xp.getD (i - 1) 0) / dx
  let alpha2 := bijectAlpha alpha (cdfFor (i - 1))
  let f : ℝ :=
    if dx = 0 then ((fp.getD i 0 : ℚ) : ℝ)
    else
      match method with
      | InterpMethod.cosine => cosBlend (fp.getD (i - 1) 0) (fp.getD i 0) alpha2
      | InterpMethod.linear =>
          (1 - (alpha2 : ℝ)) * ((fp.getD (i - 1) 0 : ℚ) : ℝ) +
            (alpha2 : ℝ) * ((fp.getD i 0 : ℚ) : ℝ)
  if xp.getD (n - 1) 0 < x then ((fp.getD (n - 1) 0 : ℚ) : ℝ) else f

/-! ### `random_angle_over_time` -/

/-- The scalar parameters of `random_angle_over_time`; every bound either is
a constant or a `TimeDependentFloat`, hence a function of time (`_to_float`
evaluates it at the current time). -/
structure AngParams where
  dang_min : ℚ → ℚ
  dang_max : ℚ → ℚ
  delta_ang_min : ℚ → ℚ
  delta_ang_max : ℚ → ℚ
  t_min : ℚ
  t_max : ℚ → ℚ
  T : ℚ
  Ts : ℚ
  max_iter : ℕ

/-- The state `(i, t, phi, key_t, key_ang, ANG)` of the outer
`jax.lax.while_loop` of `random_angle_over_time` (keys become oracle
streams). -/
structure AngState where
  i : ℕ
  t : ℚ
  phi : ℚ
  ANG : List (ℚ × ℚ)

/-- `body_fn_outer` of `random_angle_over_time`:
`dt = uniform(t_min, t_max(t))` (oracle `uT (i-1) ∈ [0,1)`), the new angle
from `_resolve_range_of_motion` (candidate oracle
`nextPhiFn (i-1) phi dt t`, evaluated delta bounds at the current `t`),
`t += dt`, record `(floor(t / Ts) * Ts, phi)` at row `i`. -/
def angBody (p : AngParams) (uT : ℕ → ℚ)
    (nextPhiFn : ℕ → ℚ → ℚ → ℚ → ℕ → ℚ) (s : AngState) : AngState :=
  let k := s.i - 1
  let dt := p.t_min + uT k * (p.t_max s.t - p.t_min)
  let phi := (resolveRomLoop (p.delta_ang_min s.t) (p.delta_ang_max s.t)
    s.phi p.max_iter (nextPhiFn k s.phi dt s.t)).1
  let t := s.t + dt
  { i := s.i + 1, t := t, phi := phi,
    ANG := dynUpdateRow s.ANG s.i ((⌊t / p.Ts⌋ : ℚ) * p.Ts, phi) }

/-- Fuel-indexed unfolding of the outer `while t <= T` loop of
`random_angle_over_time`. -/
def angOuterGo (p : AngParams) (uT : ℕ → ℚ)
    (nextPhiFn : ℕ → ℚ → ℚ → ℚ → ℕ → ℚ) : ℕ → AngState → AngState
  | 0, s => s
  | fuel + 1, s =>
      if s.t ≤ p.T then angOuterGo p uT nextPhiFn fuel (angBody p uT nextPhiFn s)
      else s

/-- The final outer-loop state of `random_angle_over_time`, starting from
`(1, 0.0, ANG_0, ANG)` with the preallocated buffer.  The fuel
`preallocRows + 1` is sufficient whenever every `dt` draw is `≥ t_min > 0`
(the theorems carry these hypotheses). -/
def angLoopResult (p : AngParams) (uT : ℕ → ℚ)
    (nextPhiFn : ℕ → ℚ → ℚ → ℚ → ℕ → ℚ) (ANG_0 : ℚ) : AngState :=
  let n := preallocRows p.t_min p.T
  angOuterGo p uT nextPhiFn (n + 1) ⟨1, 0, ANG_0, initBuf n ANG_0⟩

/-- The breakpoint buffer of `random_angle_over_time` after the
tail-overwrite with the last valid row (`end` is the final loop counter). -/
def angBreakpoints (p : AngParams) (uT : ℕ → ℚ)
    (nextPhiFn : ℕ → ℚ → ℚ → ℚ → ℕ → ℚ) (ANG_0 : ℚ) : List (ℚ × ℚ) :=
  fillTail (angLoopResult p uT nextPhiFn ANG_0).ANG
    (angLoopResult p uT nextPhiFn ANG_0).i

/-- The resampling step shared by both samplers: evaluate either
`cosInterpolate` or the randomized `interpolate(...)` on the grid
`t = jnp.arange(T, step=Ts)`. -/
noncomputable def resample (randomized : Bool) (method : InterpMethod)
    (cdfFor : ℕ → List ℚ) (T Ts : ℚ) (bps : List (ℚ × ℚ)) : List ℝ :=
  let xp := bps.map Prod.fst
  let fp := bps.map Prod.snd
  (arange T Ts).map (fun x =>
    if randomized then interpolateValue method cdfFor xp fp x
    else cosInterpolate xp fp x)

/-- `random_angle_over_time` with a generic candidate oracle `nextPhiFn`
for `_resolve_range_of_motion` (the `range_of_motion` flag only controls
the final wrap; with range-of-motion on, the result is already wrapped). -/
noncomputable def angCore (p : AngParams) (uT : ℕ → ℚ)
    (nextPhiFn : ℕ → ℚ → ℚ → ℚ → ℕ → ℚ) (ANG_0 : ℚ) (randomized : Bool)
    (method : InterpMethod) (cdfFor : ℕ → List ℚ)
    (range_of_motion : Bool) : List ℝ :=
  let q := resample randomized method cdfFor p.T p.Ts
    (angBreakpoints p uT nextPhiFn ANG_0)
  if range_of_motion then q else q.map wrap_to_pi

/-- `random_angle_over_time` with `range_of_motion = False`: candidates come
from the `_next_phi` no-range-of-motion branch (`dang` bounds evaluated at
the current time), and the resampled signal is wrapped with
`maths.wrap_to_pi`.  The per-segment CDFs of the randomized-interpolation
branch are built by `_generate_cdf(cdf_bins_min, cdf_bins_max)` from the
per-segment oracles `maskDraw`/`uC`. -/
noncomputable def random_angle_over_time (p : AngParams) (uT : ℕ → ℚ)
    (signA : ℕ → ℕ → Bool) (uA : ℕ → ℕ → ℚ) (ANG_0 : ℚ) (randomized : Bool)
    (method : InterpMethod) (cdf_bins_min : ℕ) (cdf_bins_max : Option ℕ)
    (maskDraw : ℕ → List Bool) (uC : ℕ → ℕ → ℚ) : List ℝ :=
  angCore p uT
    (fun k prev dt t =>
      nextPhiNoRom (p.dang_min t) (p.dang_max t) dt prev (signA k) (uA k))
    ANG_0 randomized method
    (fun j => generateCdf cdf_bins_min cdf_bins_max (maskDraw j) (uC j))
    false

/-! ### `random_position_over_time` -/

/-- The scalar parameters of `random_position_over_time`. -/
structure PosParams where
  pos_min : ℚ → ℚ
  pos_max : ℚ → ℚ
  dpos_min : ℚ → ℚ
  dpos_max : ℚ → ℚ
  t_min : ℚ
  t_max : ℚ → ℚ
  T : ℚ
  Ts : ℚ
  max_it : ℕ

/-- The state `(i, t, t_pre, x, x_pre, key, POS)` of the outer
`jax.lax.while_loop` of `random_position_over_time`. -/
structure PosState where
  i : ℕ
  t : ℚ
  t_pre : ℚ
  x : ℚ
  x_pre : ℚ
  POS : List (ℚ × ℚ)

/-- `body_fn_outer` of `random_position_over_time`:
`t += uniform(t_min, t_max(t_pre))` (oracle `uT (i-1) ∈ [0,1)`), run the
inner rejection loop from `(0, x)` (oracles `sign (i-1)`, `u (i-1)`),
record `(floor(t / Ts) * Ts, x)` at row `i`, then `t_pre = t`,
`x_pre = x`. -/
def posBody (pp : PosParams) (uT : ℕ → ℚ) (sign : ℕ → ℕ → Bool)
    (u : ℕ → ℕ → ℚ) (s : PosState) : PosState :=
  let k := s.i - 1
  let t := s.t + (pp.t_min + uT k * (pp.t_max s.t_pre - pp.t_min))
  let x := (posInnerLoop pp.pos_min pp.pos_max pp.dpos_min pp.dpos_max
    t s.t_pre s.x_pre s.x pp.max_it (sign k) (u k)).2
  { i := s.i + 1, t := t, t_pre := t, x := x, x_pre := x,
    POS := dynUpdateRow s.POS s.i ((⌊t / pp.Ts⌋ : ℚ) * pp.Ts, x) }

/-- Fuel-indexed unfolding of the outer `while t <= T` loop of
`random_position_over_time`. -/
def posOuterGo (pp : PosParams) (uT : ℕ → ℚ) (sign : ℕ → ℕ → Bool)
    (u : ℕ → ℕ → ℚ) : ℕ → PosState → PosState
  | 0, s => s
  | fuel + 1, s =>
      if s.t ≤ pp.T then posOuterGo pp uT sign u fuel (posBody pp uT sign u s)
      else s

/-- The final outer-loop state of `random_position_over_time`, starting from
`(1, 0.0, 0.0, 0.0, 0.0, POS)` — note that `x`/`x_pre` start at `0.0`, not
at `POS_0`; only buffer row 0 records `POS_0`. -/
def posLoopResult (pp : PosParams) (uT : ℕ → ℚ) (sign : ℕ → ℕ → Bool)
    (u : ℕ → ℕ → ℚ) (POS_0 : ℚ) : PosState :=
  let n := preallocRows pp.t_min pp.T
  posOuterGo pp uT sign u (n + 1) ⟨1, 0, 0, 0, 0, initBuf n POS_0⟩

/-- The breakpoint buffer of `random_position_over_time` after the
tail-overwrite with the last valid row. -/
def posBreakpoints (pp : PosParams) (uT : ℕ → ℚ) (sign : ℕ → ℕ → Bool)
    (u : ℕ → ℕ → ℚ) (POS_0 : ℚ) : List (ℚ × ℚ) :=
  fillTail (posLoopResult pp uT sign u POS_0).POS
    (posLoopResult pp uT sign u POS_0).i

/-- `random_position_over_time`: sample breakpoints, then resample on the
uniform grid (no wrapping). -/
noncomputable def random_position_over_time (pp : PosParams) (uT : ℕ → ℚ)
    (sign : ℕ → ℕ → Bool) (u : ℕ → ℕ → ℚ) (POS_0 : ℚ) (randomized : Bool)
    (method : InterpMethod) (cdf_bins_min : ℕ) (cdf_bins_max : Option ℕ)
    (maskDraw : ℕ → List Bool) (uC : ℕ → ℕ → ℚ) : List ℝ :=
  resample randomized method
    (fun j => generateCdf cdf_bins_min cdf_bins_max (maskDraw j) (uC j))
    pp.T pp.Ts (posBreakpoints pp uT sign u POS_0)

/-! ### Buffer-policy lemmas (C7) -/

theorem angOuterGo_buf_length (p : AngParams) (uT : ℕ → ℚ)
    (nextPhiFn : ℕ → ℚ → ℚ → ℚ → ℕ → ℚ) :
    ∀ fuel s, (angOuterGo p uT nextPhiFn fuel s).ANG.length = s.ANG.length := by
  intro fuel
  induction fuel with
  | zero => intro s; rfl
  | succ n ih =>
      intro s
      by_cases hc : s.t ≤ p.T
      · rw [show angOuterGo p uT nextPhiFn (n + 1) s
            = angOuterGo p uT nextPhiFn n (angBody p uT nextPhiFn s) by
              simp [angOuterGo, hc]]
        rw [ih]
        simp [angBody, dynUpdateRow, List.length_set]
      · simp [angOuterGo, hc]

theorem posOuterGo_buf_length (pp : PosParams) (uT : ℕ → ℚ)
    (sign : ℕ → ℕ → Bool) (u : ℕ → ℕ → ℚ) :
    ∀ fuel s, (posOuterGo pp uT sign u fuel s).POS.length = s.POS.length := by
  intro fuel
  induction fuel with
  | zero => intro s; rfl
  | succ n ih =>
      intro s
      by_cases hc : s.t ≤ pp.T
      · rw [show posOuterGo pp uT sign u (n + 1) s
            = posOuterGo pp uT sign u n (posBody pp uT sign u s) by
              simp [posOuterGo, hc]]
        rw [ih]
        simp [posBody, dynUpdateRow, List.length_set]
      · simp [posOuterGo, hc]

theorem initBuf_length (n : ℕ) (v0 : ℚ) : (initBuf n v0).length = n := by
  simp [initBuf, List.length_set, List.length_replicate]

theorem fillTail_length (buf : List (ℚ × ℚ)) (e : ℕ) :
    (fillTail buf e).length = buf.length := by
  simp [fillTail, List.length_map, List.length_range]

theorem angLoopResult_buf_length (p : AngParams) (uT : ℕ → ℚ)
    (nextPhiFn : ℕ → ℚ → ℚ → ℚ → ℕ → ℚ) (ANG_0 : ℚ) :
    (angLoopResult p uT nextPhiFn ANG_0).ANG.length = preallocRows p.t_min p.T := by
  unfold angLoopResult
  rw [angOuterGo_buf_length]
  exact initBuf_length _ _

theorem posLoopResult_buf_length (pp : PosParams) (uT : ℕ → ℚ)
    (sign : ℕ → ℕ → Bool) (u : ℕ → ℕ → ℚ) (POS_0 : ℚ) :
    (posLoopResult pp uT sign u POS_0).POS.length = preallocRows pp.t_min pp.T := by
  unfold posLoopResult
  rw [posOuterGo_buf_length]
  exact initBuf_length _ _

theorem fillTail_getD_of_le (buf : List (ℚ × ℚ)) (e j : ℕ) (hj : e ≤ j)
    (hlen : j < buf.length) :
    (fillTail buf e).getD j (0, 0) = buf.getD (e - 1) (0, 0) := by
  unfold fillTail
  rw [List.getD_eq_getElem?_getD, List.getElem?_map, List.getElem?_range hlen]
  simp only [Option.map_some', Option.getD_some]
  rw [if_neg (by omega), min_eq_left (by omega)]

theorem fillTail_getD_of_lt (buf : List (ℚ × ℚ)) (e j : ℕ) (hj : j < e)
    (hlen : j < buf.length) :
    (fillTail buf e).getD j (0, 0) = buf.getD j (0, 0) := by
  unfold fillTail
  rw [List.getD_eq_getElem?_getD, List.getElem?_map, List.getElem?_range hlen]
  simp only [Option.map_some', Option.getD_some]
  rw [if_pos hj]

/-- **C7**, counterexample: the preallocated breakpoint buffer does *not*
have `ceil(T / t_min) + 1` rows.  With `T = 3`, `t_min = 2` the buffer of
`random_angle_over_time` has `int(3 // 2) + 1 = 2` rows while
`ceil(3 / 2) + 1 = 3`. -/
theorem C7_counterexample :
    (angBreakpoints ⟨fun _ => 0, fun _ => 1, fun _ => 0, fun _ => 1, 2,
        fun _ => 2, 3, 1, 0⟩ (fun _ => 0) (fun _ _ _ _ _ => 0) 0).length = 2 ∧
    (⌈(3 : ℚ) / 2⌉ + 1 : ℤ) ≠ (2 : ℤ) := by
  constructor
  · unfold angBreakpoints
    rw [fillTail_length, angLoopResult_buf_length]
    unfold preallocRows
    norm_num
  · have h : ⌈(3 : ℚ) / 2⌉ = 2 := by
      rw [Int.ceil_eq_iff]
      norm_num
    omega

/-- **C7**, amended: both samplers preallocate a breakpoint buffer with
exactly `int(T // t_min) + 1` (i.e. `⌊T / t_min⌋ + 1`, not
`⌈T / t_min⌉ + 1`) rows, the warning fires if and only if that row count
exceeds 6000, and after the outer loop every buffer slot at index
`≥ end` (the final outer-loop counter) holds a copy of the last valid
breakpoint, i.e. of row `end - 1`, before resampling. -/
theorem C7_amended :
    (∀ (p : AngParams) (uT : ℕ → ℚ) (nextPhiFn : ℕ → ℚ → ℚ → ℚ → ℕ → ℚ)
       (ANG_0 : ℚ),
      (angBreakpoints p uT nextPhiFn ANG_0).length
        = (⌊p.T / p.t_min⌋).toNat + 1 ∧
      ∀ j, (angLoopResult p uT nextPhiFn ANG_0).i ≤ j →
        j < (angBreakpoints p uT nextPhiFn ANG_0).length →
        (angBreakpoints p uT nextPhiFn ANG_0).getD j (0, 0)
          = (angLoopResult p uT nextPhiFn ANG_0).ANG.getD
              ((angLoopResult p uT nextPhiFn ANG_0).i - 1) (0, 0)) ∧
    (∀ (pp : PosParams) (uT : ℕ → ℚ) (sign : ℕ → ℕ → Bool) (u : ℕ → ℕ → ℚ)
       (POS_0 : ℚ),
      (posBreakpoints pp uT sign u POS_0).length
        = (⌊pp.T / pp.t_min⌋).toNat + 1 ∧
      ∀ j, (posLoopResult pp uT sign u POS_0).i ≤ j →
        j < (posBreakpoints pp uT sign u POS_0).length →
        (posBreakpoints pp uT sign u POS_0).getD j (0, 0)
          = (posLoopResult pp uT sign u POS_0).POS.getD
              ((posLoopResult pp uT sign u POS_0).i - 1) (0, 0)) ∧
    (∀ t_min T : ℚ, warnHugePreallocation t_min T ↔
        6000 < (⌊T / t_min⌋).toNat + 1) := by
  refine ⟨?_, ?_, ?_⟩
  · intro p uT nextPhiFn ANG_0
    constructor
    · unfold angBreakpoints
      rw [fillTail_length, angLoopResult_buf_length]
      rfl
    · intro j hj hlen
      unfold angBreakpoints at hlen ⊢
      rw [fillTail_length] at hlen
      exact fillTail_getD_of_le _ _ _ hj hlen
  · intro pp uT sign u POS_0
    constructor
    · unfold posBreakpoints
      rw [fillTail_length, posLoopResult_buf_length]
      rfl
    · intro j hj hlen
      unfold posBreakpoints at hlen ⊢
      rw [fillTail_length] at hlen
      exact fillTail_getD_of_le _ _ _ hj hlen
  · intro t_min T
    unfold warnHugePreallocation preallocRows PREALLOCATION_WARN_LIMIT
    exact Iff.rfl

/-- **C7**, witness for the amended theorem: with `t_min = 1/2`, `T = 1`
(3 preallocated rows) and a single outer step of size `dt = 2` the loop
ends at `end = 2`, and the unused slot 2 holds a copy of row `end - 1`. -/
theorem C7_amended_witness :
    (angLoopResult ⟨fun _ => 0, fun _ => 1, fun _ => 0, fun _ => 10, 1/2,
        fun _ => 2, 1, 1, 0⟩ (fun _ => 1) (fun _ _ _ _ _ => 0) 0).i ≤ 2 ∧
    (angBreakpoints ⟨fun _ => 0, fun _ => 1, fun _ => 0, fun _ => 10, 1/2,
        fun _ => 2, 1, 1, 0⟩ (fun _ => 1) (fun _ _ _ _ _ => 0) 0).length
      = (⌊(1 : ℚ) / (1/2)⌋).toNat + 1 ∧
    (angBreakpoints ⟨fun _ => 0, fun _ => 1, fun _ => 0, fun _ => 10, 1/2,
        fun _ => 2, 1, 1, 0⟩ (fun _ => 1) (fun _ _ _ _ _ => 0) 0).getD 2 (0, 0)
      = (angLoopResult ⟨fun _ => 0, fun _ => 1, fun _ => 0, fun _ => 10, 1/2,
          fun _ => 2, 1, 1, 0⟩ (fun _ => 1) (fun _ _ _ _ _ => 0) 0).ANG.getD
          ((angLoopResult ⟨fun _ => 0, fun _ => 1, fun _ => 0, fun _ => 10, 1/2,
            fun _ => 2, 1, 1, 0⟩ (fun _ => 1) (fun _ _ _ _ _ => 0) 0).i - 1)
          (0, 0) := by
  have hi : (angLoopResult ⟨fun _ => 0, fun _ => 1, fun _ => 0, fun _ => 10, 1/2,
      fun _ => 2, 1, 1, 0⟩ (fun _ => 1) (fun _ _ _ _ _ => 0) 0).i = 2 := by
    norm_num [angLoopResult, preallocRows, angOuterGo, angBody, initBuf,
      dynUpdateRow, resolveRomLoop, romGo, romCond, romStep, abs_of_nonneg]
  have hl := (C7_amended.1 ⟨fun _ => 0, fun _ => 1, fun _ => 0, fun _ => 10, 1/2,
      fun _ => 2, 1, 1, 0⟩ (fun _ => 1) (fun _ _ _ _ _ => 0) 0).1
  refine ⟨by omega, hl, ?_⟩
  exact (C7_amended.1 ⟨fun _ => 0, fun _ => 1, fun _ => 0, fun _ => 10, 1/2,
      fun _ => 2, 1, 1, 0⟩ (fun _ => 1) (fun _ _ _ _ _ => 0) 0).2 2 (by omega)
    (by rw [hl]; norm_num; omega)

/-! ### Cosine-interpolation lemmas (C3) -/

theorem sorted_le_getD_le (xp : List ℚ) (h : xp.Sorted (· ≤ ·)) (j k : ℕ)
    (hjk : j ≤ k) (hk : k < xp.length) : xp.getD j 0 ≤ xp.getD k 0 := by
  have hj : j < xp.length := lt_of_le_of_lt hjk hk
  rw [List.getD_eq_getElem xp 0 hj, List.getD_eq_getElem xp 0 hk]
  rcases eq_or_lt_of_le hjk with rfl | hlt
  · exact le_refl _
  · exact List.Sorted.rel_get_of_lt h (by exact hlt)

theorem searchsorted_eq (xp : List ℚ) (x : ℚ) :
    ∀ i, i ≤ xp.length →
      (∀ j, j < i → xp.getD j 0 ≤ x) →
      (∀ j, i ≤ j → j < xp.length → x < xp.getD j 0) →
      searchsortedRight xp x = i := by
  induction xp with
  | nil =>
      intro i hi _ _
      simp only [List.length_nil, Nat.le_zero] at hi
      simp [searchsortedRight, hi]
  | cons a t ih =>
      intro i hi h1 h2
      unfold searchsortedRight
      rw [List.countP_cons]
      cases i with
      | zero =>
          have hx : x < a := by
            have := h2 0 (le_refl 0) (by simp)
            simpa using this
          have hd : (decide (a ≤ x)) = false := by
            simp [not_le.mpr hx]
          have ht : searchsortedRight t x = 0 := by
            refine ih 0 (Nat.zero_le _) (by omega) ?_
            intro j _ hj
            have := h2 (j + 1) (by omega) (by simpa using Nat.succ_lt_succ hj)
            simpa using this
          unfold searchsortedRight at ht
          rw [ht, hd]
          simp
      | succ k =>
          have ha : a ≤ x := by
            have := h1 0 (Nat.succ_pos k)
            simpa using this
          have hd : (decide (a ≤ x)) = true := by simp [ha]
          have ht : searchsortedRight t x = k := by
            refine ih k (by simpa using hi) ?_ ?_
            · intro j hj
              have := h1 (j + 1) (by omega)
              simpa using this
            · intro j hj hjl
              have := h2 (j + 1) (by omega) (by simpa using Nat.succ_lt_succ hjl)
              simpa using this
          unfold searchsortedRight at ht
          rw [ht, hd]
          simp

/-- **C3**: the `cosInterpolate(x, xp, fp)` contract, in four parts:
(i) for a query `x` lying between breakpoints `xp[i-1] ≤ x < xp[i]` of a
sorted breakpoint list, the result is
`(f[i-1]+f[i])/2 + (f[i-1]-f[i])/2 * cos(alpha*pi)` with
`alpha = (x-xp[i-1])/(xp[i]-xp[i-1])`;
(ii) when the bracketing index satisfies `xp[i] == xp[i-1]` the result is
`f[i]` directly;
(iii) queries beyond the last breakpoint return the last breakpoint's value;
(iv) evaluated exactly at a breakpoint of a strictly increasing breakpoint
list, it returns that breakpoint's value exactly. -/
theorem C3_cosInterpolate :
    (∀ (xp fp : List ℚ) (x : ℚ) (i : ℕ), xp.Sorted (· ≤ ·) →
      1 ≤ i → i < xp.length →
      xp.getD (i - 1) 0 ≤ x → x < xp.getD i 0 →
      cosInterpolate xp fp x
        = ((fp.getD (i - 1) 0 + fp.getD i 0 : ℚ) : ℝ) / 2 +
          ((fp.getD (i - 1) 0 - fp.getD i 0 : ℚ) : ℝ) / 2 *
            Real.cos ((((x - xp.getD (i - 1) 0) /
              (xp.getD i 0 - xp.getD (i - 1) 0) : ℚ)) * Real.pi)) ∧
    (∀ (xp fp : List ℚ) (x : ℚ) (i : ℕ),
      i = clipIdx (searchsortedRight xp x) 1 (xp.length - 1) →
      xp.getD i 0 = xp.getD (i - 1) 0 →
      ¬ xp.getD (xp.length - 1) 0 < x →
      cosInterpolate xp fp x = ((fp.getD i 0 : ℚ) : ℝ)) ∧
    (∀ (xp fp : List ℚ) (x : ℚ), xp.getD (xp.length - 1) 0 < x →
      cosInterpolate xp fp x = ((fp.getD (xp.length - 1) 0 : ℚ) : ℝ)) ∧
    (∀ (xp fp : List ℚ) (j : ℕ), xp.Sorted (· < ·) → 2 ≤ xp.length →
      j < xp.length →
      cosInterpolate xp fp (xp.getD j 0) = ((fp.getD j 0 : ℚ) : ℝ)) := by
  have hblend0 : ∀ a b : ℚ, cosBlend a b 0 = ((a : ℚ) : ℝ) := by
    intro a b
    unfold cosBlend
    push_cast
    rw [zero_mul, Real.cos_zero]
    ring
  have hblend1 : ∀ a b : ℚ, cosBlend a b 1 = ((b : ℚ) : ℝ) := by
    intro a b
    unfold cosBlend
    push_cast
    rw [one_mul, Real.cos_pi]
    ring
  refine ⟨?_, ?_, ?_, ?_⟩
  · intro xp fp x i hs h1i hin hbl hbr
    have hcount : searchsortedRight xp x = i := by
      refine searchsorted_eq xp x i (le_of_lt hin) ?_ ?_
      · intro j hj
        exact le_trans (sorted_le_getD_le xp hs j (i - 1) (by omega) (by omega)) hbl
      · intro j hj hjl
        exact lt_of_lt_of_le hbr (sorted_le_getD_le xp hs i j hj hjl)
    have hclip : clipIdx (searchsortedRight xp x) 1 (xp.length - 1) = i := by
      rw [hcount]; unfold clipIdx; omega
    have hdx : xp.getD i 0 - xp.getD (i - 1) 0 ≠ 0 := by
      have : xp.getD (i - 1) 0 < xp.getD i 0 := lt_of_le_of_lt hbl hbr
      intro hz; rw [sub_eq_zero] at hz; rw [hz] at this; exact lt_irrefl _ this
    have hguard : ¬ xp.getD (xp.length - 1) 0 < x :=
      not_lt.mpr (le_of_lt (lt_of_lt_of_le hbr
        (sorted_le_getD_le xp hs i (xp.length - 1) (by omega) (by omega))))
    simp only [cosInterpolate]
    rw [hclip, if_neg hguard, if_neg hdx]
    unfold cosBlend
    rfl
  · intro xp fp x i hidx hdeg hguard
    simp only [cosInterpolate]
    rw [← hidx, if_neg hguard, if_pos (by rw [hdeg]; ring)]
  · intro xp fp x hguard
    simp only [cosInterpolate]
    rw [if_pos hguard]
  · intro xp fp j hs hlen hj
    have hsle : xp.Sorted (· ≤ ·) := hs.le_of_lt
    have hmono : ∀ a b : ℕ, a < b → b < xp.length →
        xp.getD a 0 < xp.getD b 0 := by
      intro a b hab hb
      have haa : a < xp.length := lt_trans hab hb
      rw [List.getD_eq_getElem xp 0 haa, List.getD_eq_getElem xp 0 hb]
      exact List.Sorted.rel_get_of_lt hs (by exact hab)
    by_cases hlast : j = xp.length - 1
    · subst hlast
      have hcount : searchsortedRight xp (xp.getD (xp.length - 1) 0)
          = xp.length :=
        searchsorted_eq xp _ xp.length (le_refl _)
          (fun k hk => sorted_le_getD_le xp hsle k (xp.length - 1)
            (by omega) (by omega))
          (fun k hk hkl => absurd hkl (by omega))
      have hclip : clipIdx (searchsortedRight xp (xp.getD (xp.length - 1) 0)) 1
          (xp.length - 1) = xp.length - 1 := by
        rw [hcount]; unfold clipIdx; omega
      have hdxpos : xp.getD (xp.length - 1 - 1) 0 < xp.getD (xp.length - 1) 0 :=
        hmono _ _ (by omega) (by omega)
      have hdx : xp.getD (xp.length - 1) 0 - xp.getD (xp.length - 1 - 1) 0 ≠ 0 := by
        intro hz; rw [sub_eq_zero] at hz; rw [hz] at hdxpos; exact lt_irrefl _ hdxpos
      have halpha : (xp.getD (xp.length - 1) 0 - xp.getD (xp.length - 1 - 1) 0) /
          (xp.getD (xp.length - 1) 0 - xp.getD (xp.length - 1 - 1) 0) = 1 :=
        div_self hdx
      simp only [cosInterpolate]
      rw [hclip, if_neg (lt_irrefl _), if_neg hdx, halpha, hblend1]
    · have hjlt : j < xp.length - 1 := by omega
      have hcount : searchsortedRight xp (xp.getD j 0) = j + 1 :=
        searchsorted_eq xp _ (j + 1) (by omega)
          (fun k hk => sorted_le_getD_le xp hsle k j (by omega) hj)
          (fun k hk hkl => hmono j k (by omega) hkl)
      have hclip : clipIdx (searchsortedRight xp (xp.getD j 0)) 1
          (xp.length - 1) = j + 1 := by
        rw [hcount]; unfold clipIdx; omega
      have hdxpos : xp.getD (j + 1 - 1) 0 < xp.getD (j + 1) 0 :=
        hmono _ _ (by omega) (by omega)
      have hdx : xp.getD (j + 1) 0 - xp.getD (j + 1 - 1) 0 ≠ 0 := by
        intro hz; rw [sub_eq_zero] at hz; rw [hz] at hdxpos; exact lt_irrefl _ hdxpos
      have hguard : ¬ xp.getD (xp.length - 1) 0 < xp.getD j 0 :=
        not_lt.mpr (sorted_le_getD_le xp hsle j (xp.length - 1)
          (by omega) (by omega))
      have halpha : (xp.getD j 0 - xp.getD (j + 1 - 1) 0) /
          (xp.getD (j + 1) 0 - xp.getD (j + 1 - 1) 0) = 0 := by
        rw [show j + 1 - 1 = j by omega, sub_self, zero_div]
      simp only [cosInterpolate]
      rw [hclip, if_neg hguard, if_neg hdx, halpha, hblend0]
      rw [show j + 1 - 1 = j by omega]

/-- **C3**, witness: concrete instances of all four parts at
`xp = [0, 2]`, `fp = [3, 7]` (and `xp = [0, 0]`, `fp = [3, 7]` for the
degenerate part). -/
theorem C3_cosInterpolate_witness :
    (cosInterpolate [0, 2] [3, 7] 1
      = ((([3, 7].getD 0 0 + [3, 7].getD 1 0 : ℚ)) : ℝ) / 2 +
        ((([3, 7].getD 0 0 - [3, 7].getD 1 0 : ℚ)) : ℝ) / 2 *
          Real.cos ((((1 - [0, 2].getD 0 0) /
            ([0, 2].getD 1 0 - [0, 2].getD 0 0) : ℚ)) * Real.pi)) ∧
    (cosInterpolate [0, 0] [3, 7] 0 = (([3, 7].getD 1 0 : ℚ) : ℝ)) ∧
    (cosInterpolate [0, 2] [3, 7] 3 = (([3, 7].getD 1 0 : ℚ) : ℝ)) ∧
    (cosInterpolate [0, 2] [3, 7] ([0, 2].getD 0 0)
      = (([3, 7].getD 0 0 : ℚ) : ℝ)) := by
  have hsorted : ([0, 2] : List ℚ).Sorted (· ≤ ·) := by
    simp [List.sorted_cons]
  have hsorted2 : ([0, 2] : List ℚ).Sorted (· < ·) := by
    simp [List.sorted_cons]
  refine ⟨?_, ?_, ?_, ?_⟩
  · have := C3_cosInterpolate.1 [0, 2] [3, 7] 1 1 hsorted (le_refl 1)
      (by norm_num) (by norm_num) (by norm_num)
    simpa using this
  · exact C3_cosInterpolate.2.1 [0, 0] [3, 7] 0 1
      (by norm_num [searchsortedRight, List.countP, List.countP.go, clipIdx])
      (by norm_num) (by norm_num)
  · exact C3_cosInterpolate.2.2.1 [0, 2] [3, 7] 3 (by norm_num)
  · exact C3_cosInterpolate.2.2.2 [0, 2] [3, 7] 0 hsorted2 (by norm_num)
      (by norm_num)

/-! ### CDF lemmas (C9) -/

/-- The common tail of both `_generate_cdf` branches
(`hstack((0, increments))`, `cumsum`, divide by the last value), factored
out for the proofs; both branch embeddings are definitionally of this
shape. -/
def cdfNormalize (l : List ℚ) : List ℚ :=
  (cumsum (0 :: l)).map (fun v => v / (cumsum (0 :: l)).getLastD 0)

theorem generateCdfFixed_eq (bins : ℕ) (u : ℕ → ℚ) :
    generateCdfFixed bins u = cdfNormalize ((List.range bins).map u) := rfl

theorem generateCdfRandom_eq (dy_max : ℕ) (mask : List Bool) (u : ℕ → ℚ) :
    generateCdfRandom dy_max mask u
      = cdfNormalize ((cumsumMask 0 mask).map
          (fun c => ((List.range dy_max).map u).getD
            (if c = 0 then dy_max - 1 else c - 1) 0)) := by
  unfold generateCdfRandom cdfNormalize
  simp only [List.map_map]
  rfl

theorem cumsumFrom_length (acc : ℚ) (l : List ℚ) :
    (cumsumFrom acc l).length = l.length := by
  induction l generalizing acc with
  | nil => rfl
  | cons x t ih => simp [cumsumFrom, ih]

theorem cumsumMask_length (acc : ℕ) (l : List Bool) :
    (cumsumMask acc l).length = l.length := by
  induction l generalizing acc with
  | nil => rfl
  | cons x t ih => simp [cumsumMask, ih]

theorem cumsumMask_le (l : List Bool) :
    ∀ acc c, c ∈ cumsumMask acc l → c ≤ acc + l.length := by
  induction l with
  | nil => intro acc c hc; simp [cumsumMask] at hc
  | cons b t ih =>
      intro acc c hc
      simp only [cumsumMask, List.mem_cons] at hc
      rcases hc with rfl | hc
      · cases b <;> simp
      · have := ih (acc + if b then 1 else 0) c hc
        cases b <;> simp at this <;> simp <;> omega

theorem cumsumFrom_getLastD (x : ℚ) (t : List ℚ) :
    ∀ acc d, (cumsumFrom acc (x :: t)).getLastD d = acc + (x :: t).sum := by
  induction t generalizing x with
  | nil => intro acc d; simp [cumsumFrom]
  | cons y t2 ih =>
      intro acc d
      have h2 : cumsumFrom acc (x :: y :: t2)
          = (acc + x) :: cumsumFrom (acc + x) (y :: t2) := rfl
      rw [h2, List.getLastD_cons, ih y (acc + x) (acc + x)]
      simp
      ring

theorem getLastD_eq_getD (l : List ℚ) (d : ℚ) :
    l.getLastD d = l.getD (l.length - 1) d := by
  induction l generalizing d with
  | nil => rfl
  | cons a t ih =>
      cases t with
      | nil => rfl
      | cons b t2 =>
          rw [List.getLastD_cons, ih a]
          have h1 : (a :: b :: t2).length - 1 = t2.length + 1 := by simp
          have h2 : (b :: t2).length - 1 = t2.length := by simp
          rw [h1, h2, List.getD_cons_succ]
          have hlt : t2.length < (b :: t2).length := by simp
          rw [List.getD_eq_getElem _ a hlt, List.getD_eq_getElem _ d hlt]

theorem getD_map_div (l : List ℚ) (c : ℚ) (k : ℕ) (hk : k < l.length)
    (d : ℚ) :
    (l.map (fun v => v / c)).getD k 0 = l.getD k d / c := by
  have hk2 : k < (l.map (fun v => v / c)).length := by
    simpa using hk
  rw [List.getD_eq_getElem _ 0 hk2, List.getD_eq_getElem _ d hk,
    List.getElem_map]

theorem chain_cumsumFrom (l : List ℚ) (hpos : ∀ y ∈ l, 0 < y) :
    ∀ acc, List.Chain' (· < ·) (cumsumFrom acc l) := by
  induction l with
  | nil => intro acc; simp [cumsumFrom]
  | cons x t ih =>
      intro acc
      have hx : cumsumFrom acc (x :: t) = (acc + x) :: cumsumFrom (acc + x) t := rfl
      rw [hx, List.chain'_cons']
      constructor
      · intro h hh
        cases t with
        | nil => simp [cumsumFrom] at hh
        | cons y t2 =>
            have hy : cumsumFrom (acc + x) (y :: t2)
                = (acc + x + y) :: cumsumFrom (acc + x + y) t2 := rfl
            rw [hy] at hh
            simp at hh
            subst hh
            have : 0 < y := hpos y (by simp)
            linarith
      · exact ih (fun y hy => hpos y (by simp [hy])) (acc + x)

theorem cdfNormalize_props (l : List ℚ) (hne : l ≠ [])
    (hpos : ∀ y ∈ l, 0 < y) :
    (cdfNormalize l).length = l.length + 1 ∧
    (cdfNormalize l).getD 0 0 = 0 ∧
    (cdfNormalize l).getD l.length 0 = 1 ∧
    (∀ a b, a < b → b < l.length + 1 →
      (cdfNormalize l).getD a 0 < (cdfNormalize l).getD b 0) := by
  obtain ⟨x, t, rfl⟩ := List.exists_cons_of_ne_nil hne
  have hsum : 0 < (x :: t).sum := List.sum_pos _ hpos (by simp)
  have hlast : (cumsum (0 :: x :: t)).getLastD 0 = (x :: t).sum := by
    unfold cumsum
    have h0 : cumsumFrom 0 ((0 : ℚ) :: x :: t)
        = (0 : ℚ) :: cumsumFrom 0 (x :: t) := by
      simp [cumsumFrom]
    rw [h0, List.getLastD_cons, cumsumFrom_getLastD x t 0 0]
    simp
  have hmlen : (cumsum (0 :: x :: t)).length = (x :: t).length + 1 := by
    unfold cumsum
    rw [cumsumFrom_length]
    simp
  have hlen : (cdfNormalize (x :: t)).length = (x :: t).length + 1 := by
    unfold cdfNormalize
    rw [List.length_map, hmlen]
  refine ⟨hlen, ?_, ?_, ?_⟩
  · unfold cdfNormalize
    rw [getD_map_div _ _ 0 (by omega) 0]
    have h0 : (cumsum ((0 : ℚ) :: x :: t)).getD 0 0 = 0 := by
      unfold cumsum
      have : cumsumFrom 0 ((0 : ℚ) :: x :: t)
          = (0 : ℚ) :: cumsumFrom 0 (x :: t) := by
        simp [cumsumFrom]
      rw [this, List.getD_cons_zero]
    rw [h0, zero_div]
  · unfold cdfNormalize
    rw [getD_map_div _ _ ((x :: t).length) (by omega) 0]
    have hl : (cumsum ((0 : ℚ) :: x :: t)).getD ((x :: t).length) 0
        = (x :: t).sum := by
      rw [show (x :: t).length = (cumsum ((0 : ℚ) :: x :: t)).length - 1 by
        rw [hmlen]; omega]
      rw [← getLastD_eq_getD, hlast]
    rw [hl, hlast, div_self (ne_of_gt hsum)]
  · intro a b hab hb
    have hchain : List.Chain' (· < ·) (cumsum ((0 : ℚ) :: x :: t)) := by
      unfold cumsum
      have hx : cumsumFrom 0 ((0 : ℚ) :: x :: t)
          = (0 : ℚ) :: cumsumFrom 0 (x :: t) := by
        simp [cumsumFrom]
      rw [hx, List.chain'_cons']
      constructor
      · intro h hh
        have hy : cumsumFrom (0 : ℚ) (x :: t)
            = (0 + x) :: cumsumFrom (0 + x) t := rfl
        rw [hy] at hh
        simp at hh
        subst hh
        simpa using hpos x (by simp)
      · exact chain_cumsumFrom (x :: t) hpos 0
    have hpw := List.chain'_iff_pairwise.mp hchain
    have hb2 : b < (cumsum ((0 : ℚ) :: x :: t)).length := by
      rw [hmlen]; simpa using hb
    have ha2 : a < (cumsum ((0 : ℚ) :: x :: t)).length := lt_trans hab hb2
    have hm : (cumsum ((0 : ℚ) :: x :: t)).getD a 0
        < (cumsum ((0 : ℚ) :: x :: t)).getD b 0 := by
      rw [List.getD_eq_getElem _ 0 ha2, List.getD_eq_getElem _ 0 hb2]
      exact List.pairwise_iff_get.mp hpw ⟨a, ha2⟩ ⟨b, hb2⟩ (by exact hab)
    unfold cdfNormalize
    rw [getD_map_div _ _ a ha2 0, getD_map_div _ _ b hb2 0, hlast]
    exact div_lt_div_of_pos_right hm hsum

theorem getD_map_range (f : ℕ → ℚ) (n j : ℕ) (h : j < n) :
    ((List.range n).map f).getD j 0 = f j := by
  rw [List.getD_eq_getElem?_getD, List.getElem?_map, List.getElem?_range h]
  simp only [Option.map_some', Option.getD_some]

/-- **C9**, counterexample: in the random-bin-count branch the CDF length is
*not* `bins + 1` for the drawn bin count.  With
`cdf_bins_min = 1, cdf_bins_max = 2`, a drawn bin count of `1` (the permuted
mask `[1, 0]` has exactly one `1`), the generated CDF has length
`cdf_bins_max + 1 = 3`, not `1 + 1 = 2`. -/
theorem C9_counterexample :
    ([true, false].count true = 1) ∧
    (generateCdf 1 (some 2) [true, false] (fun _ => 1/2)).length = 3 ∧
    (3 : ℕ) ≠ 1 + 1 := by
  refine ⟨by decide, ?_, by omega⟩
  have h : generateCdf 1 (some 2) [true, false] (fun _ => 1/2)
      = generateCdfRandom 2 [true, false] (fun _ => 1/2) := rfl
  rw [h, generateCdfRandom_eq]
  unfold cdfNormalize cumsum
  rw [List.length_map, cumsumFrom_length]
  simp [cumsumMask_length]

/-- **C9**, amended: for every key (oracle draws in `[1e-6, 1)`), the
generated CDF is a strictly increasing sequence whose first element is `0`
and whose last element is `1`, built by normalizing cumulative sums of
uniform random increments; its length is `cdf_bins + 1` in the fixed-bins
branch but `cdf_bins_max + 1` in the random-bin-count branch (the drawn bin
count only selects how many distinct increment values appear). -/
theorem C9_amended :
    (∀ (bins : ℕ) (u : ℕ → ℚ), 1 ≤ bins →
      (∀ k, 1/1000000 ≤ u k ∧ u k < 1) →
      (generateCdfFixed bins u).length = bins + 1 ∧
      (generateCdfFixed bins u).getD 0 0 = 0 ∧
      (generateCdfFixed bins u).getD bins 0 = 1 ∧
      ∀ a b, a < b → b < bins + 1 →
        (generateCdfFixed bins u).getD a 0
          < (generateCdfFixed bins u).getD b 0) ∧
    (∀ (dy_max : ℕ) (mask : List Bool) (u : ℕ → ℚ), 1 ≤ dy_max →
      mask.length = dy_max →
      (∀ k, 1/1000000 ≤ u k ∧ u k < 1) →
      (generateCdfRandom dy_max mask u).length = dy_max + 1 ∧
      (generateCdfRandom dy_max mask u).getD 0 0 = 0 ∧
      (generateCdfRandom dy_max mask u).getD dy_max 0 = 1 ∧
      ∀ a b, a < b → b < dy_max + 1 →
        (generateCdfRandom dy_max mask u).getD a 0
          < (generateCdfRandom dy_max mask u).getD b 0) := by
  constructor
  · intro bins u hbins hu
    have hlen : ((List.range bins).map u).length = bins := by simp
    have hne : (List.range bins).map u ≠ [] := by
      intro h
      have := congrArg List.length h
      simp [hlen] at this
      omega
    have hpos : ∀ y ∈ (List.range bins).map u, 0 < y := by
      intro y hy
      rcases List.mem_map.mp hy with ⟨k, _, rfl⟩
      have := (hu k).1
      linarith
    have hprops := cdfNormalize_props _ hne hpos
    rw [hlen] at hprops
    rw [generateCdfFixed_eq]
    exact hprops
  · intro dy_max mask u hdy hmask hu
    have hlen : ((cumsumMask 0 mask).map
        (fun c => ((List.range dy_max).map u).getD
          (if c = 0 then dy_max - 1 else c - 1) 0)).length = dy_max := by
      rw [List.length_map, cumsumMask_length, hmask]
    have hne : (cumsumMask 0 mask).map
        (fun c => ((List.range dy_max).map u).getD
          (if c = 0 then dy_max - 1 else c - 1) 0) ≠ [] := by
      intro h
      have := congrArg List.length h
      rw [hlen] at this
      simp at this
      omega
    have hpos : ∀ y ∈ (cumsumMask 0 mask).map
        (fun c => ((List.range dy_max).map u).getD
          (if c = 0 then dy_max - 1 else c - 1) 0), 0 < y := by
      intro y hy
      rcases List.mem_map.mp hy with ⟨c, _, rfl⟩
      have hidx : (if c = 0 then dy_max - 1 else c - 1) < dy_max := by
        by_cases hc : c = 0
        · simp [hc]; omega
        · rw [if_neg hc]
          have := cumsumMask_le mask 0 c (by assumption)
          rw [hmask] at this
          omega
      rw [getD_map_range u dy_max _ hidx]
      have := (hu (if c = 0 then dy_max - 1 else c - 1)).1
      linarith
    have hprops := cdfNormalize_props _ hne hpos
    rw [hlen] at hprops
    rw [generateCdfRandom_eq]
    exact hprops

/-- **C9**, witness for the amended theorem at concrete draws. -/
theorem C9_amended_witness :
    ((generateCdfFixed 1 (fun _ => 1/2)).length = 1 + 1 ∧
      (generateCdfFixed 1 (fun _ => 1/2)).getD 0 0 = 0 ∧
      (generateCdfFixed 1 (fun _ => 1/2)).getD 1 0 = 1 ∧
      (generateCdfFixed 1 (fun _ => 1/2)).getD 0 0
        < (generateCdfFixed 1 (fun _ => 1/2)).getD 1 0) ∧
    ((generateCdfRandom 2 [true, false] (fun _ => 1/2)).length = 2 + 1 ∧
      (generateCdfRandom 2 [true, false] (fun _ => 1/2)).getD 0 0 = 0 ∧
      (generateCdfRandom 2 [true, false] (fun _ => 1/2)).getD 2 0 = 1) := by
  have h1 := C9_amended.1 1 (fun _ => 1/2) le_rfl
    (fun k => ⟨by norm_num, by norm_num⟩)
  have h2 := C9_amended.2 2 [true, false] (fun _ => 1/2) (by norm_num)
    (by decide) (fun k => ⟨by norm_num, by norm_num⟩)
  exact ⟨⟨h1.1, h1.2.1, h1.2.2.1, h1.2.2.2 0 1 (by omega) (by omega)⟩,
    ⟨h2.1, h2.2.1, h2.2.2.1⟩⟩

/-! ### Initial-value lemmas (C1) -/

theorem getD_set_ne (l : List (ℚ × ℚ)) (i j : ℕ) (a d : ℚ × ℚ) (h : i ≠ j) :
    (l.set i a).getD j d = l.getD j d := by
  rw [List.getD_eq_getElem?_getD, List.getElem?_set_ne h,
    ← List.getD_eq_getElem?_getD]

theorem getD_set_self (l : List (ℚ × ℚ)) (i : ℕ) (a d : ℚ × ℚ)
    (h : i < l.length) : (l.set i a).getD i d = a := by
  rw [List.getD_eq_getElem?_getD, List.getElem?_set_self (by simpa using h)]
  rfl

theorem getD_map_of_lt {α β : Type} (f : α → β) (l : List α) (j : ℕ)
    (h : j < l.length) (d : β) (d2 : α) :
    (l.map f).getD j d = f (l.getD j d2) := by
  have h2 : j < (l.map f).length := by simpa using h
  rw [List.getD_eq_getElem _ d h2, List.getD_eq_getElem _ d2 h,
    List.getElem_map]

theorem initBuf_getD_zero (n : ℕ) (v0 : ℚ) (h : 1 ≤ n) :
    (initBuf n v0).getD 0 (0, 0) = (0, v0) := by
  unfold initBuf
  exact getD_set_self _ 0 _ _ (by simpa using h)

/-- One body step of the angle sampler preserves the C1 buffer invariant and
records a strictly positive timestamp, provided `0 < Ts ≤ t_min`, the `dt`
oracle draws are nonnegative and `t_max ≥ t_min` pointwise. -/
theorem angBody_inv (p : AngParams) (uT : ℕ → ℚ)
    (nextPhiFn : ℕ → ℚ → ℚ → ℚ → ℕ → ℚ) (n : ℕ) (A0 : ℚ)
    (hTs : 0 < p.Ts) (hTst : p.Ts ≤ p.t_min)
    (hu : ∀ k, 0 ≤ uT k) (htmax : ∀ x, p.t_min ≤ p.t_max x) (hn : 2 ≤ n)
    (s : AngState) (hlen : s.ANG.length = n) (h1i : 1 ≤ s.i) (ht : 0 ≤ s.t)
    (h0 : s.ANG.getD 0 (0, 0) = (0, A0))
    (hpos : ∀ j, 1 ≤ j → j < s.i → j < n → 0 < (s.ANG.getD j (0, 0)).1) :
    (angBody p uT nextPhiFn s).ANG.length = n ∧
    1 ≤ (angBody p uT nextPhiFn s).i ∧
    0 ≤ (angBody p uT nextPhiFn s).t ∧
    (angBody p uT nextPhiFn s).ANG.getD 0 (0, 0) = (0, A0) ∧
    (∀ j, 1 ≤ j → j < (angBody p uT nextPhiFn s).i → j < n →
      0 < ((angBody p uT nextPhiFn s).ANG.getD j (0, 0)).1) := by
  have hdt : p.t_min ≤ p.t_min + uT (s.i - 1) * (p.t_max s.t - p.t_min) := by
    have h1 : 0 ≤ uT (s.i - 1) := hu _
    have h2 : 0 ≤ p.t_max s.t - p.t_min := by linarith [htmax s.t]
    nlinarith
  set dt := p.t_min + uT (s.i - 1) * (p.t_max s.t - p.t_min) with hdt_def
  have htnew : p.Ts ≤ s.t + dt := by linarith
  have hfloor : (1 : ℤ) ≤ ⌊(s.t + dt) / p.Ts⌋ := by
    rw [Int.le_floor]
    rw [le_div_iff₀ hTs]
    push_cast
    linarith
  have hts : 0 < (⌊(s.t + dt) / p.Ts⌋ : ℚ) * p.Ts := by
    have : (1 : ℚ) ≤ (⌊(s.t + dt) / p.Ts⌋ : ℚ) := by exact_mod_cast hfloor
    nlinarith
  have hw : min s.i (n - 1) ≥ 1 := by omega
  have hwlt : min s.i (n - 1) < n := by omega
  refine ⟨?_, ?_, ?_, ?_, ?_⟩
  · simp [angBody, dynUpdateRow, List.length_set, hlen]
  · simp [angBody]
  · simp only [angBody]
    linarith
  · simp only [angBody, dynUpdateRow, hlen]
    rw [getD_set_ne _ _ _ _ _ (by omega)]
    exact h0
  · intro j hj1 hji hjn
    simp only [angBody, dynUpdateRow, hlen] at hji ⊢
    by_cases hjw : j = min s.i (n - 1)
    · subst hjw
      rw [getD_set_self _ _ _ _ (by rw [hlen]; omega)]
      exact hts
    · rw [getD_set_ne _ _ _ _ _ (fun hh => hjw hh.symm)]
      refine hpos j hj1 ?_ hjn
      rcases Nat.lt_or_ge j s.i with h | h
      · exact h
      · exfalso
        have : j = s.i := by omega
        subst this
        exact hjw (by omega)

theorem angOuterGo_inv (p : AngParams) (uT : ℕ → ℚ)
    (nextPhiFn : ℕ → ℚ → ℚ → ℚ → ℕ → ℚ) (n : ℕ) (A0 : ℚ)
    (hTs : 0 < p.Ts) (hTst : p.Ts ≤ p.t_min)
    (hu : ∀ k, 0 ≤ uT k) (htmax : ∀ x, p.t_min ≤ p.t_max x) (hn : 2 ≤ n) :
    ∀ fuel s, s.ANG.length = n → 1 ≤ s.i → 0 ≤ s.t →
      s.ANG.getD 0 (0, 0) = (0, A0) →
      (∀ j, 1 ≤ j → j < s.i → j < n → 0 < (s.ANG.getD j (0, 0)).1) →
      (angOuterGo p uT nextPhiFn fuel s).ANG.length = n ∧
      1 ≤ (angOuterGo p uT nextPhiFn fuel s).i ∧
      (angOuterGo p uT nextPhiFn fuel s).ANG.getD 0 (0, 0) = (0, A0) ∧
      (∀ j, 1 ≤ j → j < (angOuterGo p uT nextPhiFn fuel s).i → j < n →
        0 < ((angOuterGo p uT nextPhiFn fuel s).ANG.getD j (0, 0)).1) := by
  intro fuel
  induction fuel with
  | zero =>
      intro s hlen h1i ht h0 hpos
      exact ⟨hlen, h1i, h0, hpos⟩
  | succ m ih =>
      intro s hlen h1i ht h0 hpos
      by_cases hc : s.t ≤ p.T
      · rw [show angOuterGo p uT nextPhiFn (m + 1) s
            = angOuterGo p uT nextPhiFn m (angBody p uT nextPhiFn s) by
              simp [angOuterGo, hc]]
        obtain ⟨ha, hb, hcc, hd, he⟩ := angBody_inv p uT nextPhiFn n A0 hTs hTst
          hu htmax hn s hlen h1i ht h0 hpos
        exact ih (angBody p uT nextPhiFn s) ha hb hcc hd he
      · rw [show angOuterGo p uT nextPhiFn (m + 1) s = s by
          simp [angOuterGo, hc]]
        exact ⟨hlen, h1i, h0, hpos⟩

theorem angOuterGo_i_ge (p : AngParams) (uT : ℕ → ℚ)
    (nextPhiFn : ℕ → ℚ → ℚ → ℚ → ℕ → ℚ) :
    ∀ fuel s, s.i ≤ (angOuterGo p uT nextPhiFn fuel s).i := by
  intro fuel
  induction fuel with
  | zero => intro s; exact le_refl _
  | succ m ih =>
      intro s
      by_cases hc : s.t ≤ p.T
      · rw [show angOuterGo p uT nextPhiFn (m + 1) s
            = angOuterGo p uT nextPhiFn m (angBody p uT nextPhiFn s) by
              simp [angOuterGo, hc]]
        have h1 : s.i ≤ (angBody p uT nextPhiFn s).i := by simp [angBody]
        exact le_trans h1 (ih _)
      · simp [angOuterGo, hc]

/-- One body step of the position sampler preserves the C1 buffer
invariant. -/
theorem posBody_inv (pp : PosParams) (uT : ℕ → ℚ) (sign : ℕ → ℕ → Bool)
    (u : ℕ → ℕ → ℚ) (n : ℕ) (P0 : ℚ)
    (hTs : 0 < pp.Ts) (hTst : pp.Ts ≤ pp.t_min)
    (hu : ∀ k, 0 ≤ uT k) (htmax : ∀ x, pp.t_min ≤ pp.t_max x) (hn : 2 ≤ n)
    (s : PosState) (hlen : s.POS.length = n) (h1i : 1 ≤ s.i) (ht : 0 ≤ s.t)
    (h0 : s.POS.getD 0 (0, 0) = (0, P0))
    (hpos : ∀ j, 1 ≤ j → j < s.i → j < n → 0 < (s.POS.getD j (0, 0)).1) :
    (posBody pp uT sign u s).POS.length = n ∧
    1 ≤ (posBody pp uT sign u s).i ∧
    0 ≤ (posBody pp uT sign u s).t ∧
    (posBody pp uT sign u s).POS.getD 0 (0, 0) = (0, P0) ∧
    (∀ j, 1 ≤ j → j < (posBody pp uT sign u s).i → j < n →
      0 < ((posBody pp uT sign u s).POS.getD j (0, 0)).1) := by
  have hdt : pp.t_min ≤ pp.t_min + uT (s.i - 1) * (pp.t_max s.t_pre - pp.t_min) := by
    have h1 : 0 ≤ uT (s.i - 1) := hu _
    have h2 : 0 ≤ pp.t_max s.t_pre - pp.t_min := by linarith [htmax s.t_pre]
    nlinarith
  set dt := pp.t_min + uT (s.i - 1) * (pp.t_max s.t_pre - pp.t_min) with hdt_def
  have htnew : pp.Ts ≤ s.t + dt := by linarith
  have hfloor : (1 : ℤ) ≤ ⌊(s.t + dt) / pp.Ts⌋ := by
    rw [Int.le_floor]
    rw [le_div_iff₀ hTs]
    push_cast
    linarith
  have hts : 0 < (⌊(s.t + dt) / pp.Ts⌋ : ℚ) * pp.Ts := by
    have : (1 : ℚ) ≤ (⌊(s.t + dt) / pp.Ts⌋ : ℚ) := by exact_mod_cast hfloor
    nlinarith
  have hw : min s.i (n - 1) ≥ 1 := by omega
  have hwlt : min s.i (n - 1) < n := by omega
  refine ⟨?_, ?_, ?_, ?_, ?_⟩
  · simp [posBody, dynUpdateRow, List.length_set, hlen]
  · simp [posBody]
  · simp only [posBody]
    linarith
  · simp only [posBody, dynUpdateRow, hlen]
    rw [getD_set_ne _ _ _ _ _ (by omega)]
    exact h0
  · intro j hj1 hji hjn
    simp only [posBody, dynUpdateRow, hlen] at hji ⊢
    by_cases hjw : j = min s.i (n - 1)
    · subst hjw
      rw [getD_set_self _ _ _ _ (by rw [hlen]; omega)]
      exact hts
    · rw [getD_set_ne _ _ _ _ _ (fun hh => hjw hh.symm)]
      refine hpos j hj1 ?_ hjn
      rcases Nat.lt_or_ge j s.i with h | h
      · exact h
      · exfalso
        have : j = s.i := by omega
        subst this
        exact hjw (by omega)

theorem posOuterGo_inv (pp : PosParams) (uT : ℕ → ℚ) (sign : ℕ → ℕ → Bool)
    (u : ℕ → ℕ → ℚ) (n : ℕ) (P0 : ℚ)
    (hTs : 0 < pp.Ts) (hTst : pp.Ts ≤ pp.t_min)
    (hu : ∀ k, 0 ≤ uT k) (htmax : ∀ x, pp.t_min ≤ pp.t_max x) (hn : 2 ≤ n) :
    ∀ fuel s, s.POS.length = n → 1 ≤ s.i → 0 ≤ s.t →
      s.POS.getD 0 (0, 0) = (0, P0) →
      (∀ j, 1 ≤ j → j < s.i → j < n → 0 < (s.POS.getD j (0, 0)).1) →
      (posOuterGo pp uT sign u fuel s).POS.length = n ∧
      1 ≤ (posOuterGo pp uT sign u fuel s).i ∧
      (posOuterGo pp uT sign u fuel s).POS.getD 0 (0, 0) = (0, P0) ∧
      (∀ j, 1 ≤ j → j < (posOuterGo pp uT sign u fuel s).i → j < n →
        0 < ((posOuterGo pp uT sign u fuel s).POS.getD j (0, 0)).1) := by
  intro fuel
  induction fuel with
  | zero =>
      intro s hlen h1i ht h0 hpos
      exact ⟨hlen, h1i, h0, hpos⟩
  | succ m ih =>
      intro s hlen h1i ht h0 hpos
      by_cases hc : s.t ≤ pp.T
      · rw [show posOuterGo pp uT sign u (m + 1) s
            = posOuterGo pp uT sign u m (posBody pp uT sign u s) by
              simp [posOuterGo, hc]]
        obtain ⟨ha, hb, hcc, hd, he⟩ := posBody_inv pp uT sign u n P0 hTs hTst
          hu htmax hn s hlen h1i ht h0 hpos
        exact ih (posBody pp uT sign u s) ha hb hcc hd he
      · rw [show posOuterGo pp uT sign u (m + 1) s = s by
          simp [posOuterGo, hc]]
        exact ⟨hlen, h1i, h0, hpos⟩

theorem posOuterGo_i_ge (pp : PosParams) (uT : ℕ → ℚ) (sign : ℕ → ℕ → Bool)
    (u : ℕ → ℕ → ℚ) :
    ∀ fuel s, s.i ≤ (posOuterGo pp uT sign u fuel s).i := by
  intro fuel
  induction fuel with
  | zero => intro s; exact le_refl _
  | succ m ih =>
      intro s
      by_cases hc : s.t ≤ pp.T
      · rw [show posOuterGo pp uT sign u (m + 1) s
            = posOuterGo pp uT sign u m (posBody pp uT sign u s) by
              simp [posOuterGo, hc]]
        have h1 : s.i ≤ (posBody pp uT sign u s).i := by simp [posBody]
        exact le_trans h1 (ih _)
      · simp [posOuterGo, hc]

theorem cosBlend_zero (a b : ℚ) : cosBlend a b 0 = ((a : ℚ) : ℝ) := by
  unfold cosBlend
  push_cast
  rw [zero_mul, Real.cos_zero]
  ring

theorem bijectAlpha_zero (cdf : List ℚ) : bijectAlpha 0 cdf = cdf.getD 0 0 := by
  simp [bijectAlpha]

theorem cdfNormalize_getD_zero (l : List ℚ) :
    (cdfNormalize l).getD 0 0 = 0 := by
  unfold cdfNormalize
  have hlen : 0 < (cumsum ((0 : ℚ) :: l)).length := by
    unfold cumsum
    rw [cumsumFrom_length]
    simp
  rw [getD_map_div _ _ 0 hlen 0]
  have h0 : (cumsum ((0 : ℚ) :: l)).getD 0 0 = 0 := by
    unfold cumsum
    have : cumsumFrom 0 ((0 : ℚ) :: l) = (0 : ℚ) :: cumsumFrom 0 l := by
      simp [cumsumFrom]
    rw [this, List.getD_cons_zero]
  rw [h0, zero_div]

theorem generateCdf_getD_zero (bmin : ℕ) (bmax : Option ℕ) (mask : List Bool)
    (u : ℕ → ℚ) : (generateCdf bmin bmax mask u).getD 0 0 = 0 := by
  cases bmax with
  | none =>
      rw [show generateCdf bmin none mask u = generateCdfFixed bmin u from rfl,
        generateCdfFixed_eq]
      exact cdfNormalize_getD_zero _
  | some dy_max =>
      rw [show generateCdf bmin (some dy_max) mask u
          = generateCdfRandom dy_max mask u from rfl, generateCdfRandom_eq]
      exact cdfNormalize_getD_zero _

theorem arange_length (T Ts : ℚ) :
    (arange T Ts).length = (⌈T / Ts⌉).toNat := by
  simp [arange]

theorem arange_getD_zero (T Ts : ℚ) (h : 1 ≤ (⌈T / Ts⌉).toNat) :
    (arange T Ts).getD 0 0 = 0 := by
  unfold arange
  rw [getD_map_range _ _ _ (by omega)]
  simp

/-- The value produced by the resampling step at grid point `t = 0`, when
the breakpoint buffer starts with timestamp `0` and all later timestamps
are positive: it is exactly the value of breakpoint 0 (for the cosine
branch and for both methods of the randomized branch, whose per-segment
CDFs start at 0). -/
theorem resample_getD_zero (randomized : Bool) (method : InterpMethod)
    (cdfFor : ℕ → List ℚ) (T Ts : ℚ) (bps : List (ℚ × ℚ))
    (hgrid : 1 ≤ (⌈T / Ts⌉).toNat) (hlen2 : 2 ≤ bps.length)
    (h00 : (bps.getD 0 (0, 0)).1 = 0)
    (hpos : ∀ j, 1 ≤ j → j < bps.length → 0 < (bps.getD j (0, 0)).1)
    (hcdf : ∀ j, (cdfFor j).getD 0 0 = 0) :
    (resample randomized method cdfFor T Ts bps).getD 0 0
      = (((bps.getD 0 (0, 0)).2 : ℚ) : ℝ) := by
  have hgl : 0 < (arange T Ts).length := by rw [arange_length]; omega
  have hxplen : (bps.map Prod.fst).length = bps.length := by simp
  have hxp0 : (bps.map Prod.fst).getD 0 0 = 0 := by
    rw [getD_map_of_lt _ _ 0 (by omega) 0 (0, 0)]
    exact h00
  have hxpj : ∀ j, 1 ≤ j → j < bps.length →
      0 < (bps.map Prod.fst).getD j 0 := by
    intro j h1 h2
    rw [getD_map_of_lt _ _ j h2 0 (0, 0)]
    exact hpos j h1 h2
  have hcount : searchsortedRight (bps.map Prod.fst) 0 = 1 := by
    refine searchsorted_eq _ 0 1 (by omega) ?_ ?_
    · intro j hj
      have : j = 0 := by omega
      subst this
      rw [hxp0]
    · intro j hj hjl
      rw [hxplen] at hjl
      exact hxpj j hj hjl
  have hclip : clipIdx (searchsortedRight (bps.map Prod.fst) 0) 1
      ((bps.map Prod.fst).length - 1) = 1 := by
    rw [hcount]
    unfold clipIdx
    rw [hxplen]
    omega
  have hdx : (bps.map Prod.fst).getD 1 0 - (bps.map Prod.fst).getD 0 0 ≠ 0 := by
    rw [hxp0, sub_zero]
    exact ne_of_gt (hxpj 1 le_rfl (by omega))
  have hguard : ¬ (bps.map Prod.fst).getD ((bps.map Prod.fst).length - 1) 0
      < 0 := by
    rw [hxplen]
    exact not_lt.mpr (le_of_lt (hxpj (bps.length - 1) (by omega) (by omega)))
  have halpha : (0 - (bps.map Prod.fst).getD (1 - 1) 0) /
      ((bps.map Prod.fst).getD 1 0 - (bps.map Prod.fst).getD (1 - 1) 0) = 0 := by
    rw [show (1 : ℕ) - 1 = 0 from rfl, hxp0]
    simp only [sub_zero, zero_div]
  have hfp0 : (bps.map Prod.snd).getD (1 - 1) 0 = (bps.getD 0 (0, 0)).2 := by
    rw [show (1 : ℕ) - 1 = 0 from rfl,
      getD_map_of_lt Prod.snd bps 0 (by omega) 0 (0, 0)]
  simp only [resample]
  rw [getD_map_of_lt _ _ 0 hgl 0 0, arange_getD_zero T Ts hgrid]
  cases randomized with
  | false =>
      simp only [Bool.false_eq_true, if_false, cosInterpolate]
      rw [hclip, if_neg hguard, if_neg hdx, halpha, cosBlend_zero, hfp0]
  | true =>
      simp only [if_true, interpolateValue]
      rw [hclip, if_neg hguard, if_neg hdx, halpha, bijectAlpha_zero,
        hcdf (1 - 1)]
      cases method with
      | cosine => rw [cosBlend_zero, hfp0]
      | linear =>
          rw [hfp0]
          push_cast
          ring

theorem preallocRows_ge_two (t_min T : ℚ) (h0 : 0 < t_min) (hT : t_min ≤ T) :
    2 ≤ preallocRows t_min T := by
  unfold preallocRows
  have h1 : (1 : ℚ) ≤ T / t_min := by
    rw [le_div_iff₀ h0]
    linarith
  have h2 : (1 : ℤ) ≤ ⌊T / t_min⌋ := by
    rw [Int.le_floor]
    exact_mod_cast h1
  omega

theorem angBreakpoints_facts (p : AngParams) (uT : ℕ → ℚ)
    (nextPhiFn : ℕ → ℚ → ℚ → ℚ → ℕ → ℚ) (A0 : ℚ)
    (hTs : 0 < p.Ts) (hTst : p.Ts ≤ p.t_min) (hT : p.t_min ≤ p.T)
    (hu : ∀ k, 0 ≤ uT k) (htmax : ∀ x, p.t_min ≤ p.t_max x) :
    2 ≤ (angBreakpoints p uT nextPhiFn A0).length ∧
    (angBreakpoints p uT nextPhiFn A0).getD 0 (0, 0) = (0, A0) ∧
    (∀ j, 1 ≤ j → j < (angBreakpoints p uT nextPhiFn A0).length →
      0 < ((angBreakpoints p uT nextPhiFn A0).getD j (0, 0)).1) := by
  have htm : 0 < p.t_min := lt_of_lt_of_le hTs hTst
  set n := preallocRows p.t_min p.T with hn_def
  have hn : 2 ≤ n := preallocRows_ge_two p.t_min p.T htm hT
  have hinit_len : (initBuf n A0).length = n := initBuf_length n A0
  have hinit0 : (initBuf n A0).getD 0 (0, 0) = (0, A0) :=
    initBuf_getD_zero n A0 (by omega)
  have hinv := angOuterGo_inv p uT nextPhiFn n A0 hTs hTst hu htmax hn
    (n + 1) ⟨1, 0, A0, initBuf n A0⟩ hinit_len (le_refl 1) (le_refl 0)
    hinit0 (by intro j h1 h2 _; simp at h2; omega)
  have hr_eq : angLoopResult p uT nextPhiFn A0
      = angOuterGo p uT nextPhiFn (n + 1) ⟨1, 0, A0, initBuf n A0⟩ := rfl
  obtain ⟨hrlen, hri, hr0, hrpos⟩ := hinv
  rw [← hr_eq] at hrlen hri hr0 hrpos
  have hri2 : 2 ≤ (angLoopResult p uT nextPhiFn A0).i := by
    have hstep : angOuterGo p uT nextPhiFn (n + 1) ⟨1, 0, A0, initBuf n A0⟩
        = angOuterGo p uT nextPhiFn n
            (angBody p uT nextPhiFn ⟨1, 0, A0, initBuf n A0⟩) := by
      have hcond : (0 : ℚ) ≤ p.T := by linarith
      simp [angOuterGo, hcond]
    rw [hr_eq, hstep]
    have h2 : (angBody p uT nextPhiFn ⟨1, 0, A0, initBuf n A0⟩).i = 2 := by
      simp [angBody]
    calc (2 : ℕ) = _ := h2.symm
      _ ≤ _ := angOuterGo_i_ge p uT nextPhiFn n _
  have hbl : (angBreakpoints p uT nextPhiFn A0).length = n := by
    unfold angBreakpoints
    rw [fillTail_length, hrlen]
  refine ⟨by omega, ?_, ?_⟩
  · unfold angBreakpoints
    rw [fillTail_getD_of_lt _ _ 0 (by omega) (by omega)]
    exact hr0
  · intro j h1 h2
    rw [hbl] at h2
    unfold angBreakpoints
    by_cases hje : j < (angLoopResult p uT nextPhiFn A0).i
    · rw [fillTail_getD_of_lt _ _ j hje (by omega)]
      exact hrpos j h1 hje h2
    · rw [fillTail_getD_of_le _ _ j (by omega) (by omega)]
      exact hrpos ((angLoopResult p uT nextPhiFn A0).i - 1) (by omega)
        (by omega) (by omega)

theorem posBreakpoints_facts (pp : PosParams) (uT : ℕ → ℚ)
    (sign : ℕ → ℕ → Bool) (u : ℕ → ℕ → ℚ) (P0 : ℚ)
    (hTs : 0 < pp.Ts) (hTst : pp.Ts ≤ pp.t_min) (hT : pp.t_min ≤ pp.T)
    (hu : ∀ k, 0 ≤ uT k) (htmax : ∀ x, pp.t_min ≤ pp.t_max x) :
    2 ≤ (posBreakpoints pp uT sign u P0).length ∧
    (posBreakpoints pp uT sign u P0).getD 0 (0, 0) = (0, P0) ∧
    (∀ j, 1 ≤ j → j < (posBreakpoints pp uT sign u P0).length →
      0 < ((posBreakpoints pp uT sign u P0).getD j (0, 0)).1) := by
  have htm : 0 < pp.t_min := lt_of_lt_of_le hTs hTst
  set n := preallocRows pp.t_min pp.T with hn_def
  have hn : 2 ≤ n := preallocRows_ge_two pp.t_min pp.T htm hT
  have hinit_len : (initBuf n P0).length = n := initBuf_length n P0
  have hinit0 : (initBuf n P0).getD 0 (0, 0) = (0, P0) :=
    initBuf_getD_zero n P0 (by omega)
  have hinv := posOuterGo_inv pp uT sign u n P0 hTs hTst hu htmax hn
    (n + 1) ⟨1, 0, 0, 0, 0, initBuf n P0⟩ hinit_len (le_refl 1) (le_refl 0)
    hinit0 (by intro j h1 h2 _; simp at h2; omega)
  have hr_eq : posLoopResult pp uT sign u P0
      = posOuterGo pp uT sign u (n + 1) ⟨1, 0, 0, 0, 0, initBuf n P0⟩ := rfl
  obtain ⟨hrlen, hri, hr0, hrpos⟩ := hinv
  rw [← hr_eq] at hrlen hri hr0 hrpos
  have hri2 : 2 ≤ (posLoopResult pp uT sign u P0).i := by
    have hstep : posOuterGo pp uT sign u (n + 1) ⟨1, 0, 0, 0, 0, initBuf n P0⟩
        = posOuterGo pp uT sign u n
            (posBody pp uT sign u ⟨1, 0, 0, 0, 0, initBuf n P0⟩) := by
      have hcond : (0 : ℚ) ≤ pp.T := by linarith
      simp [posOuterGo, hcond]
    rw [hr_eq, hstep]
    have h2 : (posBody pp uT sign u ⟨1, 0, 0, 0, 0, initBuf n P0⟩).i = 2 := by
      simp [posBody]
    calc (2 : ℕ) = _ := h2.symm
      _ ≤ _ := posOuterGo_i_ge pp uT sign u n _
  have hbl : (posBreakpoints pp uT sign u P0).length = n := by
    unfold posBreakpoints
    rw [fillTail_length, hrlen]
  refine ⟨by omega, ?_, ?_⟩
  · unfold posBreakpoints
    rw [fillTail_getD_of_lt _ _ 0 (by omega) (by omega)]
    exact hr0
  · intro j h1 h2
    rw [hbl] at h2
    unfold posBreakpoints
    by_cases hje : j < (posLoopResult pp uT sign u P0).i
    · rw [fillTail_getD_of_lt _ _ j hje (by omega)]
      exact hrpos j h1 hje h2
    · rw [fillTail_getD_of_le _ _ j (by omega) (by omega)]
      exact hrpos ((posLoopResult pp uT sign u P0).i - 1) (by omega)
        (by omega) (by omega)

theorem resample_length (randomized : Bool) (method : InterpMethod)
    (cdfFor : ℕ → List ℚ) (T Ts : ℚ) (bps : List (ℚ × ℚ)) :
    (resample randomized method cdfFor T Ts bps).length
      = (arange T Ts).length := by
  simp [resample]

theorem grid_nonempty (Ts t_min T : ℚ) (hTs : 0 < Ts) (hTst : Ts ≤ t_min)
    (hT : t_min ≤ T) : 1 ≤ (⌈T / Ts⌉).toNat := by
  have h1 : (1 : ℚ) ≤ T / Ts := by
    rw [le_div_iff₀ hTs]
    linarith
  have h2 : (1 : ℚ) ≤ (⌈T / Ts⌉ : ℚ) := le_trans h1 (Int.le_ceil _)
  have h3 : (1 : ℤ) ≤ ⌈T / Ts⌉ := by exact_mod_cast h2
  omega

/-- **C1**, amended: for every valid parameterization *with `Ts ≤ t_min`*
(the resampling step never exceeds the minimum waiting time, so the first
recorded breakpoint timestamp is positive), the resampled trajectory of
`random_angle_over_time` satisfies `trajectory[0] = wrap_to_pi(ANG_0)`
(range-of-motion off) and that of `random_position_over_time` satisfies
`trajectory[0] = POS_0`, for every choice of `ANG_0` and `POS_0`, every
interpolation mode, and all draw oracles with `dt ≥ t_min` (`uT ≥ 0`,
`t_max ≥ t_min`).  Without `Ts ≤ t_min` the claim fails
(`C1_counterexample`). -/
theorem C1_amended (p : AngParams) (uT : ℕ → ℚ) (signA : ℕ → ℕ → Bool)
    (uA : ℕ → ℕ → ℚ) (ANG_0 : ℚ) (rand1 : Bool) (m1 : InterpMethod)
    (bmin1 : ℕ) (bmax1 : Option ℕ) (mask1 : ℕ → List Bool) (uC1 : ℕ → ℕ → ℚ)
    (pp : PosParams) (uTp : ℕ → ℚ) (signP : ℕ → ℕ → Bool) (uP : ℕ → ℕ → ℚ)
    (POS_0 : ℚ) (rand2 : Bool) (m2 : InterpMethod) (bmin2 : ℕ)
    (bmax2 : Option ℕ) (mask2 : ℕ → List Bool) (uC2 : ℕ → ℕ → ℚ)
    (hTs1 : 0 < p.Ts) (hTst1 : p.Ts ≤ p.t_min) (hT1 : p.t_min ≤ p.T)
    (hu1 : ∀ k, 0 ≤ uT k) (htmax1 : ∀ x, p.t_min ≤ p.t_max x)
    (hTs2 : 0 < pp.Ts) (hTst2 : pp.Ts ≤ pp.t_min) (hT2 : pp.t_min ≤ pp.T)
    (hu2 : ∀ k, 0 ≤ uTp k) (htmax2 : ∀ x, pp.t_min ≤ pp.t_max x) :
    (random_angle_over_time p uT signA uA ANG_0 rand1 m1 bmin1 bmax1
        mask1 uC1).getD 0 0 = wrap_to_pi ((ANG_0 : ℚ) : ℝ) ∧
    (random_position_over_time pp uTp signP uP POS_0 rand2 m2 bmin2 bmax2
        mask2 uC2).getD 0 0 = ((POS_0 : ℚ) : ℝ) := by
  constructor
  · obtain ⟨hbl, hb0, hbpos⟩ := angBreakpoints_facts p uT
      (fun k prev dt t =>
        nextPhiNoRom (p.dang_min t) (p.dang_max t) dt prev (signA k) (uA k))
      ANG_0 hTs1 hTst1 hT1 hu1 htmax1
    have hgrid := grid_nonempty p.Ts p.t_min p.T hTs1 hTst1 hT1
    have hq := resample_getD_zero rand1 m1
      (fun j => generateCdf bmin1 bmax1 (mask1 j) (uC1 j)) p.T p.Ts
      (angBreakpoints p uT
        (fun k prev dt t =>
          nextPhiNoRom (p.dang_min t) (p.dang_max t) dt prev (signA k) (uA k))
        ANG_0)
      hgrid hbl (by rw [hb0]) hbpos
      (fun j => generateCdf_getD_zero bmin1 bmax1 (mask1 j) (uC1 j))
    rw [hb0] at hq
    have hqlen : 0 < (resample rand1 m1
        (fun j => generateCdf bmin1 bmax1 (mask1 j) (uC1 j)) p.T p.Ts
        (angBreakpoints p uT
          (fun k prev dt t =>
            nextPhiNoRom (p.dang_min t) (p.dang_max t) dt prev (signA k) (uA k))
          ANG_0)).length := by
      rw [resample_length, arange_length]
      omega
    unfold random_angle_over_time angCore
    simp only [Bool.false_eq_true, if_false]
    rw [getD_map_of_lt wrap_to_pi _ 0 hqlen 0 0, hq]
  · obtain ⟨hbl, hb0, hbpos⟩ := posBreakpoints_facts pp uTp signP uP POS_0
      hTs2 hTst2 hT2 hu2 htmax2
    have hgrid := grid_nonempty pp.Ts pp.t_min pp.T hTs2 hTst2 hT2
    have hq := resample_getD_zero rand2 m2
      (fun j => generateCdf bmin2 bmax2 (mask2 j) (uC2 j)) pp.T pp.Ts
      (posBreakpoints pp uTp signP uP POS_0)
      hgrid hbl (by rw [hb0]) hbpos
      (fun j => generateCdf_getD_zero bmin2 bmax2 (mask2 j) (uC2 j))
    rw [hb0] at hq
    unfold random_position_over_time
    exact hq

/-- **C1**, counterexample: with `t_min = 1/2 < Ts = 2`, `T = 1`,
`POS_0 = 0`, valid draws (`dt = t_min` each outer step, every candidate
accepted first try with rate `3/2` inside the `(1, 2)` band), all three
breakpoints get the recorded timestamp `floor(t/Ts)*Ts = 0`; resampling at
`t = 0` then brackets into the *last* duplicated-timestamp breakpoint and
returns `9/4`, not `POS_0 = 0`. -/
theorem C1_counterexample :
    (random_position_over_time ⟨fun _ => -10, fun _ => 10, fun _ => 1,
        fun _ => 2, 1/2, fun _ => 1/2, 1, 2, 1⟩ (fun _ => 0)
        (fun _ _ => true) (fun _ _ => 1/2) 0 false InterpMethod.cosine
        1 none (fun _ => []) (fun _ _ => 0)).getD 0 0 = ((9/4 : ℚ) : ℝ) ∧
    ((9/4 : ℚ) : ℝ) ≠ ((0 : ℚ) : ℝ) := by
  have hbps : posBreakpoints ⟨fun _ => -10, fun _ => 10, fun _ => 1,
      fun _ => 2, 1/2, fun _ => 1/2, 1, 2, 1⟩ (fun _ => 0)
      (fun _ _ => true) (fun _ _ => 1/2) 0
      = [(0, 0), (0, 3/4), (0, 9/4)] := by
    have ht2 : Int.toNat 2 = 2 := rfl
    norm_num [posBreakpoints, posLoopResult, preallocRows, posOuterGo,
      posBody, posInnerLoop, posGo, posCond, posStep, initBuf, dynUpdateRow,
      fillTail, abs_of_nonneg, List.range_succ, ht2,
      List.replicate_succ]
  have hgrid : arange (1 : ℚ) 2 = [0] := by
    have hceil : ⌈(1 : ℚ) / 2⌉ = 1 := by
      rw [Int.ceil_eq_iff]
      norm_num
    norm_num [arange, hceil, List.range_succ]
  have hcount : searchsortedRight [0, 0, 0] 0 = 3 := by
    norm_num [searchsortedRight, List.countP, List.countP.go]
  have hcos : cosInterpolate [0, 0, 0] [0, 3/4, 9/4] 0 = ((9/4 : ℚ) : ℝ) := by
    simp only [cosInterpolate, hcount]
    norm_num [clipIdx]
  constructor
  · unfold random_position_over_time
    rw [hbps]
    simp only [resample, hgrid]
    norm_num [hcos]
  · intro h
    have : (9/4 : ℚ) = 0 := by exact_mod_cast h
    norm_num at this

/-- **C1**, witness for the amended theorem at a concrete valid
parameterization with `Ts = t_min = 1`, `T = 1`. -/
theorem C1_amended_witness :
    (random_angle_over_time ⟨fun _ => 0, fun _ => 1, fun _ => 0,
        fun _ => 10, 1, fun _ => 1, 1, 1, 0⟩ (fun _ => 0)
        (fun _ _ => true) (fun _ _ => 0) 2 false InterpMethod.cosine
        1 none (fun _ => []) (fun _ _ => 0)).getD 0 0
      = wrap_to_pi (((2 : ℚ) : ℚ) : ℝ) ∧
    (random_position_over_time ⟨fun _ => -1, fun _ => 1, fun _ => 0,
        fun _ => 1, 1, fun _ => 1, 1, 1, 0⟩ (fun _ => 0)
        (fun _ _ => true) (fun _ _ => 0) 5 false InterpMethod.cosine
        1 none (fun _ => []) (fun _ _ => 0)).getD 0 0 = (((5 : ℚ) : ℚ) : ℝ) :=
  C1_amended ⟨fun _ => 0, fun _ => 1, fun _ => 0, fun _ => 10, 1,
      fun _ => 1, 1, 1, 0⟩ (fun _ => 0) (fun _ _ => true) (fun _ _ => 0) 2
    false InterpMethod.cosine 1 none (fun _ => []) (fun _ _ => 0)
    ⟨fun _ => -1, fun _ => 1, fun _ => 0, fun _ => 1, 1, fun _ => 1, 1, 1, 0⟩
    (fun _ => 0) (fun _ _ => true) (fun _ _ => 0) 5 false InterpMethod.cosine
    1 none (fun _ => []) (fun _ _ => 0)
    (by norm_num) (by norm_num) (by norm_num)
    (fun k => le_refl 0) (fun x => by norm_num)
    (by norm_num) (by norm_num) (by norm_num)
    (fun k => le_refl 0) (fun x => by norm_num)

/-! ### Forward kinematics (C4)

`forward_kinematics_transforms` lives in `src/x_xy/algorithms/kinematics.py`;
its collaborators `base.Transform`, `algebra.transform_mul`,
`scan.scan_sys` and `jcalc.jcalc_transform` are repository modules that are
not part of the provided sources.  Following the spec they are modelled
abstractly: `Transform` is an arbitrary type with a composition operator and
an identity (`Transform.zero`), `jcalc_transform` is an arbitrary pure map
from `(joint type, q slice, joint params)` to a transform, and the scan
visits links in increasing index order (parents first, valid because
`parent_index[i] < i`). -/

/-- Modelled from the spec: the missing collaborator operations of
`forward_kinematics_transforms` — the associative transform composition
with identity (`algebra.transform_mul`, `base.Transform.zero`), the joint
transform registry lookup (`jcalc.jcalc_transform`) and the per-type
generalized-coordinate width used by `scan_sys` to slice `q`. -/
structure FKOps (T : Type) where
  transform_mul : T → T → T
  zero : T
  jcalc_transform : String → List ℚ → List ℚ → T
  q_width : String → ℕ

/-- The per-link data of `base.System` that `forward_kinematics_transforms`
reads: the static offset `transform1` and the `joint_params` vector. -/
structure FKLink (T : Type) where
  transform1 : T
  joint_params : List ℚ

/-- The `base.System` fields used by `forward_kinematics_transforms`. -/
structure FKSystem (T : Type) where
  links : List (FKLink T)
  link_types : List String
  link_parents : List ℤ

/-- The start of link `i`'s segment in the flat coordinate vector `q`
(`scan_sys` hands each link a `q` slice of width `q_width(joint_type)`). -/
def qOffset {T : Type} (ops : FKOps T) (types : List String) (i : ℕ) : ℕ :=
  ((types.take i).map ops.q_width).sum

/-- Link `i`'s slice of the flat coordinate vector `q`. -/
def qSegment {T : Type} (ops : FKOps T) (types : List String) (q : List ℚ)
    (i : ℕ) : List ℚ :=
  (q.drop (qOffset ops types i)).take (ops.q_width (types.getD i ""))

/-- `update_eps_to_l` of `forward_kinematics_transforms` for link `i`:
`transform2 = jcalc_transform(joint_type, q, link.joint_params)`,
`transform = transform_mul(transform2, link.transform1)`,
`eps_to_l[link_idx] = transform_mul(transform, eps_to_l[parent_idx])`.
The dictionary `eps_to_l` (initialized with `{-1: Transform.zero()}`) is
modelled as a total map `ℤ → T`; only keys `-1` and already-visited links
are ever read because `parent_index[i] < i`. -/
def fkStep {T : Type} (ops : FKOps T) (sys : FKSystem T) (q : List ℚ)
    (acc : ℤ → T) (i : ℕ) : ℤ → T :=
  let ty := sys.link_types.getD i ""
  let link := sys.links.getD i ⟨ops.zero, []⟩
  let transform2 := ops.jcalc_transform ty (qSegment ops sys.link_types q i)
    link.joint_params
  let transform := ops.transform_mul transform2 link.transform1
  fun j => if j = (i : ℤ) then
    ops.transform_mul transform (acc (sys.link_parents.getD i (-1)))
  else acc j

/-- The scan state after visiting links `0, …, k-1`: the `eps_to_l`
dictionary and the per-link outputs collected so far. -/
def fkState {T : Type} (ops : FKOps T) (sys : FKSystem T) (q : List ℚ)
    (k : ℕ) : (ℤ → T) × List T :=
  (List.range k).foldl
    (fun (st : (ℤ → T) × List T) i =>
      let m2 := fkStep ops sys q st.1 i
      (m2, st.2 ++ [m2 (i : ℤ)]))
    (fun _ => ops.zero, [])

/-- `forward_kinematics_transforms(sys, q)`: scan over the links in
increasing index order, threading the `eps_to_l` dictionary and collecting
the per-link base-to-link transform (the first component of the source's
return value; the updated-system component only caches `transform` and
`transform2`, which are recomputed here on demand). -/
def forward_kinematics_transforms {T : Type} (ops : FKOps T)
    (sys : FKSystem T) (q : List ℚ) : List T :=
  (fkState ops sys q sys.links.length).2

theorem fkState_succ {T : Type} (ops : FKOps T) (sys : FKSystem T)
    (q : List ℚ) (k : ℕ) :
    fkState ops sys q (k + 1)
      = (fkStep ops sys q (fkState ops sys q k).1 k,
         (fkState ops sys q k).2
           ++ [fkStep ops sys q (fkState ops sys q k).1 k (k : ℤ)]) := by
  unfold fkState
  rw [List.range_succ, List.foldl_append]
  rfl

theorem fkState_inv {T : Type} (ops : FKOps T) (sys : FKSystem T)
    (q : List ℚ) : ∀ k,
    (fkState ops sys q k).2.length = k ∧
    (∀ j : ℕ, j < k →
      (fkState ops sys q k).1 (j : ℤ) = (fkState ops sys q k).2.getD j ops.zero) ∧
    (∀ z : ℤ, z < 0 ∨ (k : ℤ) ≤ z → (fkState ops sys q k).1 z = ops.zero) := by
  intro k
  induction k with
  | zero =>
      refine ⟨rfl, ?_, ?_⟩
      · intro j hj; omega
      · intro z _; rfl
  | succ m ih =>
      obtain ⟨hlen, hmap, hout⟩ := ih
      rw [fkState_succ]
      refine ⟨by simp [hlen], ?_, ?_⟩
      · intro j hj
        by_cases hjm : j = m
        · subst hjm
          simp only []
          rw [List.getD_append_right _ _ _ _ (by omega), hlen]
          simp
        · have hjlt : j < m := by omega
          have hne : ((j : ℤ) = (m : ℤ)) = False := by
            simp
            omega
          simp only []
          rw [List.getD_append _ _ _ _ (by omega)]
          have hstep : fkStep ops sys q (fkState ops sys q m).1 m (j : ℤ)
              = (fkState ops sys q m).1 (j : ℤ) := by
            simp [fkStep]
            intro hcontra
            omega
          rw [hstep]
          exact hmap j hjlt
      · intro z hz
        simp only []
        have hstep : fkStep ops sys q (fkState ops sys q m).1 m z
            = (fkState ops sys q m).1 z := by
          simp [fkStep]
          intro hcontra
          subst hcontra
          rcases hz with h | h
          · omega
          · omega
        rw [hstep]
        exact hout z (by rcases hz with h | h; exact Or.inl h; exact Or.inr (by omega))

theorem fkState_stable {T : Type} (ops : FKOps T) (sys : FKSystem T)
    (q : List ℚ) (a : ℕ) :
    ∀ b, a ≤ b → ∀ j, j < a →
      (fkState ops sys q b).2.getD j ops.zero
        = (fkState ops sys q a).2.getD j ops.zero := by
  intro b
  induction b with
  | zero =>
      intro hab j hj
      omega
  | succ m ih =>
      intro hab j hj
      rcases Nat.lt_or_ge a (m + 1) with h | h
      · have ham : a ≤ m := by omega
        rw [fkState_succ]
        simp only []
        rw [List.getD_append _ _ _ _ (by
          rw [(fkState_inv ops sys q m).1]; omega)]
        exact ih ham j hj
      · have : a = m + 1 := by omega
        subst this
        rfl

/-- **C4**: for every joint-transform registry and transform algebra
(Modelled from the spec: `Transform` composition `transform_mul` with
identity `zero`, and `jcalc_transform`), every system and coordinate
vector `q`, `forward_kinematics_transforms` computes for each link `i`
(in increasing index order)
`local = jcalc_transform(joint_type[i], q_segment[i], joint_params[i])`,
then `transform[i] = transform_mul(local, transform1[i])`
(joint-then-offset order), then
`world[i] = transform_mul(transform[i], world[parent[i]])`, where the
virtual root parent `-1` contributes the identity transform. -/
theorem C4_forward_kinematics {T : Type} (ops : FKOps T) (sys : FKSystem T)
    (q : List ℚ) (i : ℕ) (p : ℤ) (hi : i < sys.links.length)
    (hp : sys.link_parents.getD i (-1) = p) (hpl : p < (i : ℤ))
    (hpg : -1 ≤ p) :
    (forward_kinematics_transforms ops sys q).getD i ops.zero
      = ops.transform_mul
          (ops.transform_mul
            (ops.jcalc_transform (sys.link_types.getD i "")
              (qSegment ops sys.link_types q i)
              ((sys.links.getD i ⟨ops.zero, []⟩).joint_params))
            ((sys.links.getD i ⟨ops.zero, []⟩).transform1))
          (if p = -1 then ops.zero
           else (forward_kinematics_transforms ops sys q).getD p.toNat
             ops.zero) := by
  unfold forward_kinematics_transforms
  have houti : (fkState ops sys q sys.links.length).2.getD i ops.zero
      = (fkState ops sys q (i + 1)).2.getD i ops.zero :=
    fkState_stable ops sys q (i + 1) sys.links.length (by omega) i
      (by omega)
  rw [houti, fkState_succ]
  simp only []
  rw [List.getD_append_right _ _ _ _ (by
    rw [(fkState_inv ops sys q i).1]),
    (fkState_inv ops sys q i).1]
  simp only [Nat.sub_self, List.getD_cons_zero]
  unfold fkStep
  rw [if_pos rfl, hp]
  by_cases hroot : p = -1
  · rw [if_pos hroot]
    have : (fkState ops sys q i).1 p = ops.zero := by
      refine (fkState_inv ops sys q i).2.2 p (Or.inl (by omega))
    rw [this]
  · rw [if_neg hroot]
    have hp0 : 0 ≤ p := by omega
    have hptn : ((p.toNat : ℤ)) = p := Int.toNat_of_nonneg hp0
    have h1 : (fkState ops sys q i).1 p
        = (fkState ops sys q i).2.getD p.toNat ops.zero := by
      rw [← hptn]
      exact (fkState_inv ops sys q i).2.1 p.toNat (by omega)
    have h2 : (fkState ops sys q sys.links.length).2.getD p.toNat ops.zero
        = (fkState ops sys q i).2.getD p.toNat ops.zero := by
      rcases Nat.eq_zero_or_pos i with hi0 | hipos
      · omega
      · have := fkState_stable ops sys q i sys.links.length (by omega)
          p.toNat (by omega)
        exact this
    rw [h1, h2]

/-- A concrete transform algebra (subtraction on ℚ, deliberately
non-commutative) and a concrete two-link system used by the C4 witness. -/
def fkOpsW : FKOps ℚ :=
  ⟨fun a b => a - b, 0,
   fun ty qs ps => qs.sum + ps.sum + (ty.length : ℚ), fun _ => 1⟩

/-- Concrete two-link chain (root plus one child) for the C4 witness. -/
def fkSysW : FKSystem ℚ :=
  ⟨[⟨5, [1]⟩, ⟨7, [2]⟩], ["rx", "py"], [-1, 0]⟩

/-- **C4**, witness at a concrete two-link system: link 1 (child of link
0). -/
theorem C4_forward_kinematics_witness :
    (forward_kinematics_transforms fkOpsW fkSysW [10, 20]).getD 1 fkOpsW.zero
      = fkOpsW.transform_mul
          (fkOpsW.transform_mul
            (fkOpsW.jcalc_transform (fkSysW.link_types.getD 1 "")
              (qSegment fkOpsW fkSysW.link_types [10, 20] 1)
              ((fkSysW.links.getD 1 ⟨fkOpsW.zero, []⟩).joint_params))
            ((fkSysW.links.getD 1 ⟨fkOpsW.zero, []⟩).transform1))
          (if (0 : ℤ) = -1 then fkOpsW.zero
           else (forward_kinematics_transforms fkOpsW fkSysW [10, 20]).getD
             (Int.toNat 0) fkOpsW.zero) :=
  C4_forward_kinematics fkOpsW fkSysW [10, 20] 1 0
    (by norm_num [fkSysW]) rfl (by norm_num) (by norm_num)

/-! ### Sensor simulation (C8, C10)

`sensors.py` is in the provided sources; its collaborators from the missing
`maths` and `algebra` modules (`rotate`, quaternion operations,
`quat_lowpassfilter`, `transform_mul`) are modelled from the spec.  Signals
are lists over ℝ (floats idealized as reals, since the Butterworth stage
uses `tan`/`sqrt`). -/

/-- A 3-vector over ℝ. -/
structure Vec3 where
  x : ℝ
  y : ℝ
  z : ℝ

def v3zero : Vec3 := ⟨0, 0, 0⟩

def v3add (a b : Vec3) : Vec3 := ⟨a.x + b.x, a.y + b.y, a.z + b.z⟩

def v3sub (a b : Vec3) : Vec3 := ⟨a.x - b.x, a.y - b.y, a.z - b.z⟩

def v3smul (c : ℝ) (a : Vec3) : Vec3 := ⟨c * a.x, c * a.y, c * a.z⟩

/-- A quaternion `w + xi + yj + zk` over ℝ. -/
structure Quat where
  w : ℝ
  x : ℝ
  y : ℝ
  z : ℝ

def qid : Quat := ⟨1, 0, 0, 0⟩

/-- Modelled from the spec: quaternion (Hamilton) multiplication from the
missing `maths` module. -/
def qmul (a b : Quat) : Quat :=
  ⟨a.w * b.w - a.x * b.x - a.y * b.y - a.z * b.z,
   a.w * b.x + a.x * b.w + a.y * b.z - a.z * b.y,
   a.w * b.y - a.x * b.z + a.y * b.w + a.z * b.x,
   a.w * b.z + a.x * b.y - a.y * b.x + a.z * b.w⟩

/-- Modelled from the spec: quaternion conjugation; for the unit quaternions
of `Transform.rot` this is `maths.quat_inv`. -/
def qconj (a : Quat) : Quat := ⟨a.w, -a.x, -a.y, -a.z⟩

/-- Modelled from the spec: `maths.rotate(v, q)` rotates a vector by a unit
quaternion; convention `q * (0, v) * conj q` (the sensor-frame facts proved
below are independent of the handedness convention). -/
def rotate (v : Vec3) (q : Quat) : Vec3 :=
  let r := qmul (qmul q ⟨0, v.x, v.y, v.z⟩) (qconj q)
  ⟨r.x, r.y, r.z⟩

/-- `accelerometer(xs, gravity, dt)` from `sensors.py`:
`acc = (pos[:-2] + pos[2:] - 2*pos[1:-1]) / dt**2`, `acc = acc + gravity`,
`acc = vstack((acc[0:1], acc, acc[-1][None]))`, `rotate(acc, xs.rot)`. -/
noncomputable def accelerometer (pos : List Vec3) (rot : List Quat)
    (gravity : Vec3) (dt : ℝ) : List Vec3 :=
  let acc := (List.range (pos.length - 2)).map (fun j =>
    v3add (v3smul ((dt ^ 2)⁻¹)
      (v3sub (v3add (pos.getD j v3zero) (pos.getD (j + 2) v3zero))
        (v3smul 2 (pos.getD (j + 1) v3zero)))) gravity)
  let acc2 := acc.take 1 ++ acc ++ [acc.getD (acc.length - 1) v3zero]
  List.zipWith rotate acc2 rot

/-- Modelled from the spec: `maths.quat_to_rot_axis` extracts the axis and
the angle of a quaternion; spec: the gyroscope converts `dq` to an
axis-angle rate `axis * angle / dt`, zeroing rates with `|angle| ≤ 1e-10`. -/
noncomputable def quatToRotAxisRate (q : Quat) (dt : ℝ) : Vec3 :=
  let angle := 2 * Real.arccos q.w
  let nrm := Real.sqrt (q.x ^ 2 + q.y ^ 2 + q.z ^ 2)
  let axis : Vec3 := ⟨q.x / nrm, q.y / nrm, q.z / nrm⟩
  if 1 / 10 ^ 10 < |angle| then v3smul (angle / dt) axis else v3zero

/-- `gyroscope(rot, dt)` from `sensors.py`:
`dq = quat_mul(q[1:], quat_inv(q[:-1]))`, append the last element, convert
to axis-angle rates. -/
noncomputable def gyroscope (rot : List Quat) (dt : ℝ) : List Vec3 :=
  let dq := List.zipWith qmul rot.tail (rot.dropLast.map qconj)
  let dq2 := dq ++ [dq.getD (dq.length - 1) qid]
  dq2.map (fun q => quatToRotAxisRate q dt)

/-- The `jax.lax.scan` body of `_quasi_physical_simulation`: semi-implicit
integration of the mass-spring-damper (`mass = 1`, damping `qp_damp = 35`,
stiffness `qp_stif = 625`): velocity is updated first from the
spring/damper force, then position from the new velocity. -/
noncomputable def qpScan (dt : ℝ) :
    Vec3 × Vec3 → List (Vec3 × Vec3) → List Vec3
  | _, [] => []
  | (pos, vel), zp :: rest =>
      let acc := v3add (v3smul 35 (v3sub zp.2 vel)) (v3smul 625 (v3sub zp.1 pos))
      let vel2 := v3add vel (v3smul dt acc)
      let pos2 := v3add pos (v3smul dt vel2)
      pos2 :: qpScan dt (pos2, vel2) rest

/-- `_quasi_physical_simulation(xs, dt)` applied to the position channel:
`zeropoint_vel = vstack((0, diff(pos)/dt))`, initial state
`(pos[0], 0)`, scan `step_dynamics`. -/
noncomputable def quasiPhysicalPos (ps : List Vec3) (dt : ℝ) : List Vec3 :=
  let zvel := v3zero :: (List.zipWith v3sub ps.tail ps).map (v3smul (1 / dt))
  qpScan dt (ps.getD 0 v3zero, v3zero) (List.zip ps zvel)

/-- The `jax.lax.scan` body `f` of `_butterworth` (second-order IIR
update). -/
noncomputable def bwScan (b0 b1 b2 a1 a2 : ℝ) :
    Vec3 × Vec3 × Vec3 × Vec3 → List Vec3 → List Vec3
  | _, [] => []
  | (x1, x2, y1, y2), xi :: rest =>
      let yi := v3add (v3add (v3add (v3smul b0 xi) (v3smul b1 x1))
        (v3add (v3smul b2 x2) (v3smul a1 y1))) (v3smul a2 y2)
      yi :: bwScan b0 b1 b2 a1 a2 (xi, x1, yi, y1) rest

/-- One `"forward"` pass of `_butterworth(signal, f_sampling, f_cutoff)`:
second-order Butterworth coefficients from `tan`, scan over `signal[2:]`
with carry `(signal[1], signal[0]) * 2`, then
`concatenate((signal[0:1],)*2 + (signal,))`. -/
noncomputable def butterworthForward (signal : List Vec3)
    (f_sampling f_cutoff : ℝ) : List Vec3 :=
  let ff := f_cutoff / f_sampling
  let ita := 1 / Real.tan (Real.pi * ff)
  let q := Real.sqrt 2
  let b0 := 1 / (1 + q * ita + ita ^ 2)
  let b1 := 2 * b0
  let b2 := b0
  let a1 := 2 * (ita ^ 2 - 1) * b0
  let a2 := -(1 - q * ita + ita ^ 2) * b0
  let ys := bwScan b0 b1 b2 a1 a2
    (signal.getD 1 v3zero, signal.getD 0 v3zero,
     signal.getD 1 v3zero, signal.getD 0 v3zero) (signal.drop 2)
  ys.take 1 ++ ys.take 1 ++ ys

/-- `_butterworth` with the default `"forward_backward"` method: a forward
pass, then a backward pass (flip, forward pass, flip back). -/
noncomputable def butterworth (signal : List Vec3)
    (f_sampling f_cutoff : ℝ) : List Vec3 :=
  let fwd := butterworthForward signal f_sampling f_cutoff
  (butterworthForward fwd.reverse f_sampling f_cutoff).reverse

/-- Quaternion normalization (needs `sqrt`). -/
noncomputable def qnormalize (a : Quat) : Quat :=
  let n := Real.sqrt (a.w ^ 2 + a.x ^ 2 + a.y ^ 2 + a.z ^ 2)
  ⟨a.w / n, a.x / n, a.y / n, a.z / n⟩

/-- The scan of the exponential quaternion low-pass: each output is the
normalized convex combination of the previous output and the new sample. -/
noncomputable def quatLPGo (alpha : ℝ) : Quat → List Quat → List Quat
  | _, [] => []
  | prev, q :: rest =>
      let y := qnormalize ⟨(1 - alpha) * prev.w + alpha * q.w,
        (1 - alpha) * prev.x + alpha * q.x,
        (1 - alpha) * prev.y + alpha * q.y,
        (1 - alpha) * prev.z + alpha * q.z⟩
      y :: quatLPGo alpha y rest

/-- Modelled from the spec: `maths.quat_lowpassfilter` (missing module) is
an exponential low-pass on the quaternion trajectory; one output per input
sample. -/
noncomputable def quat_lowpassfilter (qs : List Quat) (alpha : ℝ) :
    List Quat :=
  quatLPGo alpha (qs.getD 0 qid) qs

/-- `jnp.roll(l, i, axis=0)`: cyclic shift by `i` (may be negative). -/
def rollV (l : List Vec3) (i : ℤ) : List Vec3 :=
  (List.range l.length).map (fun k : ℕ =>
    l.getD (((k : ℤ) - i).emod (l.length : ℤ)).toNat v3zero)

/-- `_moving_average(arr, window)` from `sensors.py`: pad with
`half_window` copies of the first and last element, sum the rolls
`i = -half_window … half_window`, divide by `window`, slice back to the
original length. -/
noncomputable def moving_average (arr : List Vec3) (window : ℕ) : List Vec3 :=
  let half := (window - 1) / 2
  let padded := (List.range (arr.length + window - 1)).map (fun k =>
    if k < half then arr.getD 0 v3zero
    else if k < arr.length + half then arr.getD (k - half) v3zero
    else arr.getD (arr.length - 1) v3zero)
  let summed := (List.range (2 * half + 1)).foldl
    (fun acc j => List.zipWith v3add acc (rollV padded ((j : ℤ) - (half : ℤ))))
    (List.replicate (arr.length + window - 1) v3zero)
  ((summed.map (v3smul ((window : ℝ))⁻¹)).drop half).take arr.length

/-- The delay stage of `imu`:
`jnp.pad(arr, ((delay, 0), (0, 0)))[:-delay]`. -/
def delayOp (l : List Vec3) (d : ℕ) : List Vec3 :=
  (List.replicate d v3zero ++ l).take l.length

/-- One channel of `add_noise_bias`: add the per-sample noise draw and the
per-call bias draw (both oracles). -/
def addNoiseChannel (noise : ℕ → Vec3) (bias : Vec3) (l : List Vec3) :
    List Vec3 :=
  (List.range l.length).map (fun k =>
    v3add (v3add (l.getD k v3zero) (noise k)) bias)

/-- The rigid transform of `base.Transform` (rotation quaternion plus
translation). -/
structure TransformM where
  rot : Quat
  pos : Vec3

/-- Modelled from the spec: `algebra.transform_mul` composes rigid
transforms (rotations by quaternion multiplication, translations rotated
and added; only used for the sensor-to-segment stage, where the claims
depend only on it being a per-frame map). -/
noncomputable def transform_mul (t1 t2 : TransformM) : TransformM :=
  ⟨qmul t1.rot t2.rot, v3add t2.pos (rotate t1.pos (qconj t2.rot))⟩

/-- The pose-preprocessing stages of `imu(...)`, in source order:
optional sensor-to-segment rotation
(`vmap(transform_mul, (None, 0))(xs_s2s, xs)`), optional quasi-physical
smoothing of the position channel, optional Butterworth low-pass of the
position channel (`f_sampling = 1/dt`), optional exponential low-pass of
the orientation channel. -/
noncomputable def imuPre (xs : List TransformM) (dt : ℝ)
    (random_s2s_ori : Option Quat) (quasi_physical : Bool)
    (low_pass_filter_pos_f_cutoff : Option ℝ)
    (low_pass_filter_rot_alpha : Option ℝ) : List TransformM :=
  let xs1 := match random_s2s_ori with
    | some q0 => xs.map (fun x => transform_mul ⟨q0, v3zero⟩ x)
    | none => xs
  let xs2 := if quasi_physical then
      List.zipWith (fun (x : TransformM) p => TransformM.mk x.rot p) xs1
        (quasiPhysicalPos (xs1.map TransformM.pos) dt)
    else xs1
  let xs3 := match low_pass_filter_pos_f_cutoff with
    | some fc => List.zipWith (fun (x : TransformM) p => TransformM.mk x.rot p) xs2
        (butterworth (xs2.map TransformM.pos) (1 / dt) fc)
    | none => xs2
  match low_pass_filter_rot_alpha with
  | some alpha => List.zipWith (fun (x : TransformM) r => TransformM.mk r x.pos) xs3
      (quat_lowpassfilter (xs3.map TransformM.rot) alpha)
  | none => xs3

/-- The measurement-postprocessing stages of `imu(...)` for one channel
(`jax.tree_map` applies them to `acc` and `gyr` alike): optional moving
average, the delay default `(smoothen_degree - 1) // 2` when smoothing is
on and no delay is given, the delay (applied only when positive), and
optional noise + bias. -/
noncomputable def imuChannel (arr : List Vec3) (noisy : Bool)
    (smoothen_degree : Option ℕ) (delay : Option ℕ) (noise : ℕ → Vec3)
    (bias : Vec3) : List Vec3 :=
  let a1 := match smoothen_degree with
    | some w => moving_average arr w
    | none => arr
  let delay2 := match delay with
    | some d => some d
    | none => match smoothen_degree with
      | some w => some ((w - 1) / 2)
      | none => none
  let a2 := match delay2 with
    | some d => if 0 < d then delayOp a1 d else a1
    | none => a1
  if noisy then addNoiseChannel noise bias a2 else a2

/-- `imu(...)` from `sensors.py`: preprocess the pose trajectory, compute
the raw accelerometer and gyroscope signals, postprocess both channels. -/
noncomputable def imu (xs : List TransformM) (gravity : Vec3) (dt : ℝ)
    (noisy : Bool) (smoothen_degree : Option ℕ) (delay : Option ℕ)
    (random_s2s_ori : Option Quat) (quasi_physical : Bool)
    (low_pass_filter_pos_f_cutoff : Option ℝ)
    (low_pass_filter_rot_alpha : Option ℝ)
    (noiseA noiseG : ℕ → Vec3) (biasA biasG : Vec3) :
    List Vec3 × List Vec3 :=
  let xs4 := imuPre xs dt random_s2s_ori quasi_physical
    low_pass_filter_pos_f_cutoff low_pass_filter_rot_alpha
  (imuChannel (accelerometer (xs4.map TransformM.pos)
      (xs4.map TransformM.rot) gravity dt) noisy smoothen_degree delay
      noiseA biasA,
   imuChannel (gyroscope (xs4.map TransformM.rot) dt) noisy smoothen_degree
      delay noiseG biasG)

theorem getD_map_range_any {β : Type} (f : ℕ → β) (d : β) (n j : ℕ)
    (h : j < n) : ((List.range n).map f).getD j d = f j := by
  rw [List.getD_eq_getElem?_getD, List.getElem?_map, List.getElem?_range h]
  simp only [Option.map_some', Option.getD_some]

theorem getD_zipWith {α β γ : Type} (f : α → β → γ) (a : List α) (b : List β)
    (j : ℕ) (ha : j < a.length) (hb : j < b.length) (d : γ) (da : α) (db : β) :
    (List.zipWith f a b).getD j d = f (a.getD j da) (b.getD j db) := by
  have hz : j < (List.zipWith f a b).length := by
    rw [List.length_zipWith]
    omega
  rw [List.getD_eq_getElem _ d hz, List.getD_eq_getElem _ da ha,
    List.getD_eq_getElem _ db hb, List.getElem_zipWith]

theorem rotate_v3add (a b : Vec3) (q : Quat) :
    rotate (v3add a b) q = v3add (rotate a q) (rotate b q) := by
  simp only [rotate, qmul, qconj, v3add, Vec3.mk.injEq]
  refine ⟨by ring, by ring, by ring⟩

/-- **C8**: `accelerometer` returns one sample per input frame; interior
frames equal the second-order central finite difference
`(x[t-1] + x[t+1] - 2*x[t]) / dt²`, the first and last frame replicate the
nearest interior derivative, the result is rotated into the moving (body)
frame, and gravity is added in the body frame — the added gravity term of
each output sample is the gravity vector expressed in that frame
(`rotate g rot[t]`; in the source gravity is added before the rotation,
which is equivalent by linearity of the rotation). -/
theorem C8_accelerometer (pos : List Vec3) (rot : List Quat) (g : Vec3)
    (dt : ℝ) (hN : 3 ≤ pos.length) (hrot : rot.length = pos.length) :
    (accelerometer pos rot g dt).length = pos.length ∧
    (∀ t, 1 ≤ t → t + 1 < pos.length →
      (accelerometer pos rot g dt).getD t v3zero
        = v3add
            (rotate (v3smul ((dt ^ 2)⁻¹)
              (v3sub (v3add (pos.getD (t - 1) v3zero) (pos.getD (t + 1) v3zero))
                (v3smul 2 (pos.getD t v3zero)))) (rot.getD t qid))
            (rotate g (rot.getD t qid))) ∧
    ((accelerometer pos rot g dt).getD 0 v3zero
      = v3add
          (rotate (v3smul ((dt ^ 2)⁻¹)
            (v3sub (v3add (pos.getD 0 v3zero) (pos.getD 2 v3zero))
              (v3smul 2 (pos.getD 1 v3zero)))) (rot.getD 0 qid))
          (rotate g (rot.getD 0 qid))) ∧
    ((accelerometer pos rot g dt).getD (pos.length - 1) v3zero
      = v3add
          (rotate (v3smul ((dt ^ 2)⁻¹)
            (v3sub (v3add (pos.getD (pos.length - 3) v3zero)
                (pos.getD (pos.length - 1) v3zero))
              (v3smul 2 (pos.getD (pos.length - 2) v3zero))))
            (rot.getD (pos.length - 1) qid))
          (rotate g (rot.getD (pos.length - 1) qid))) := by
  set N := pos.length with hN_def
  set accVal : ℕ → Vec3 := fun j =>
    v3add (v3smul ((dt ^ 2)⁻¹)
      (v3sub (v3add (pos.getD j v3zero) (pos.getD (j + 2) v3zero))
        (v3smul 2 (pos.getD (j + 1) v3zero)))) g with haccVal
  set acc : List Vec3 := (List.range (N - 2)).map accVal with hacc
  have hacclen : acc.length = N - 2 := by simp [hacc]
  have haccget : ∀ j, j < N - 2 → acc.getD j v3zero = accVal j := by
    intro j hj
    rw [hacc]
    exact getD_map_range_any accVal v3zero (N - 2) j hj
  set acc2 : List Vec3 := acc.take 1 ++ acc ++ [acc.getD (acc.length - 1) v3zero]
    with hacc2
  have htake1 : (acc.take 1).length = 1 := by
    rw [List.length_take]
    omega
  have hacc2len : acc2.length = N := by
    rw [hacc2]
    simp only [List.length_append, List.length_singleton, htake1, hacclen]
    omega
  have hae : accelerometer pos rot g dt = List.zipWith rotate acc2 rot := by
    simp only [accelerometer]
  have hacc2get : ∀ t, t < N →
      acc2.getD t v3zero
        = accVal (if t = 0 then 0 else if t ≤ N - 2 then t - 1 else N - 3) := by
    intro t htN
    rw [hacc2]
    by_cases ht0 : t = 0
    · subst ht0
      rw [List.getD_append _ _ _ _ (by
        simp only [List.length_append, htake1]; omega)]
      rw [List.getD_append _ _ _ _ (by rw [htake1]; omega)]
      have h1 : acc.take 1 = [acc.getD 0 v3zero] := by
        cases hacce : acc with
        | nil => rw [hacce] at hacclen; simp at hacclen; omega
        | cons a tl => simp [hacce]
      rw [h1]
      simp only [List.getD_cons_zero, if_pos rfl]
      exact haccget 0 (by omega)
    · by_cases htmid : t ≤ N - 2
      · rw [List.getD_append _ _ _ _ (by
          simp only [List.length_append, htake1, hacclen]; omega)]
        rw [List.getD_append_right _ _ _ _ (by rw [htake1]; omega), htake1]
        rw [if_neg ht0, if_pos htmid]
        exact haccget (t - 1) (by omega)
      · rw [List.getD_append_right _ _ _ _ (by
          simp only [List.length_append, htake1, hacclen]; omega)]
        simp only [List.length_append, htake1, hacclen]
        have hidx : t - (1 + (N - 2)) = 0 := by omega
        rw [hidx, List.getD_cons_zero]
        rw [if_neg ht0, if_neg htmid,
          show N - 2 - 1 = N - 3 by omega]
        exact haccget (N - 3) (by omega)
  have hout : ∀ t, t < N →
      (accelerometer pos rot g dt).getD t v3zero
        = rotate (acc2.getD t v3zero) (rot.getD t qid) := by
    intro t htN
    rw [hae]
    exact getD_zipWith rotate acc2 rot t (by omega) (by omega) v3zero v3zero qid
  have hsplit : ∀ j q, rotate (accVal j) q
      = v3add
          (rotate (v3smul ((dt ^ 2)⁻¹)
            (v3sub (v3add (pos.getD j v3zero) (pos.getD (j + 2) v3zero))
              (v3smul 2 (pos.getD (j + 1) v3zero)))) q)
          (rotate g q) := by
    intro j q
    rw [haccVal]
    exact rotate_v3add _ _ _
  refine ⟨?_, ?_, ?_, ?_⟩
  · rw [hae, List.length_zipWith, hacc2len, hrot]
    omega
  · intro t ht1 ht2
    rw [hout t (by omega), hacc2get t (by omega),
      if_neg (by omega), if_pos (by omega), hsplit]
    have h1 : t - 1 + 2 = t + 1 := by omega
    have h2 : t - 1 + 1 = t := by omega
    rw [h1, h2]
  · rw [hout 0 (by omega), hacc2get 0 (by omega), if_pos rfl, hsplit]
  · rw [hout (N - 1) (by omega), hacc2get (N - 1) (by omega),
      if_neg (by omega), if_neg (by omega), hsplit]
    have h1 : N - 3 + 2 = N - 1 := by omega
    have h2 : N - 3 + 1 = N - 2 := by omega
    rw [h1, h2]

/-- **C8**, witness at a concrete 3-frame trajectory. -/
theorem C8_accelerometer_witness :
    (accelerometer [v3zero, v3zero, v3zero] [qid, qid, qid] ⟨0, 0, 1⟩
        1).length = 3 ∧
    (accelerometer [v3zero, v3zero, v3zero] [qid, qid, qid] ⟨0, 0, 1⟩
        1).getD 0 v3zero
      = v3add
          (rotate (v3smul (((1 : ℝ) ^ 2)⁻¹)
            (v3sub (v3add v3zero v3zero) (v3smul 2 v3zero))) qid)
          (rotate ⟨0, 0, 1⟩ qid) := by
  have h := C8_accelerometer [v3zero, v3zero, v3zero] [qid, qid, qid]
    ⟨0, 0, 1⟩ 1 (by norm_num) (by norm_num)
  refine ⟨by simpa using h.1, ?_⟩
  have h3 := h.2.2.1
  simpa using h3

/-! ### Length preservation of the `imu` pipeline stages (C10) -/

theorem qpScan_length (dt : ℝ) :
    ∀ (st : Vec3 × Vec3) (l : List (Vec3 × Vec3)),
      (qpScan dt st l).length = l.length := by
  intro st l
  induction l generalizing st with
  | nil => rfl
  | cons zp rest ih =>
      obtain ⟨pos, vel⟩ := st
      simp only [qpScan, List.length_cons]
      rw [ih]

theorem quasiPhysicalPos_length (ps : List Vec3) (dt : ℝ) :
    (quasiPhysicalPos ps dt).length = ps.length := by
  simp only [quasiPhysicalPos]
  rw [qpScan_length]
  rw [List.length_zip]
  simp only [List.length_cons, List.length_map, List.length_zipWith,
    List.length_tail]
  omega

theorem bwScan_length (b0 b1 b2 a1 a2 : ℝ) :
    ∀ (st : Vec3 × Vec3 × Vec3 × Vec3) (l : List Vec3),
      (bwScan b0 b1 b2 a1 a2 st l).length = l.length := by
  intro st l
  induction l generalizing st with
  | nil => rfl
  | cons xi rest ih =>
      obtain ⟨x1, x2, y1, y2⟩ := st
      simp only [bwScan, List.length_cons]
      rw [ih]

theorem butterworthForward_length (signal : List Vec3) (fs fc : ℝ)
    (h : 3 ≤ signal.length) :
    (butterworthForward signal fs fc).length = signal.length := by
  simp only [butterworthForward, List.length_append, List.length_take,
    bwScan_length, List.length_drop]
  omega

theorem butterworth_length (signal : List Vec3) (fs fc : ℝ)
    (h : 3 ≤ signal.length) :
    (butterworth signal fs fc).length = signal.length := by
  simp only [butterworth]
  rw [List.length_reverse, butterworthForward_length, List.length_reverse,
    butterworthForward_length _ _ _ h]
  rw [List.length_reverse, butterworthForward_length _ _ _ h]
  omega

theorem quatLPGo_length (alpha : ℝ) :
    ∀ (prev : Quat) (l : List Quat), (quatLPGo alpha prev l).length = l.length := by
  intro prev l
  induction l generalizing prev with
  | nil => rfl
  | cons q rest ih =>
      simp only [quatLPGo, List.length_cons]
      rw [ih]

theorem quat_lowpassfilter_length (qs : List Quat) (alpha : ℝ) :
    (quat_lowpassfilter qs alpha).length = qs.length := by
  simp only [quat_lowpassfilter]
  exact quatLPGo_length alpha _ qs

theorem accelerometer_length (pos : List Vec3) (rot : List Quat) (g : Vec3)
    (dt : ℝ) (hN : 3 ≤ pos.length) (hr : rot.length = pos.length) :
    (accelerometer pos rot g dt).length = pos.length := by
  simp only [accelerometer]
  rw [List.length_zipWith, List.length_append, List.length_append,
    List.length_take, List.length_singleton, List.length_map,
    List.length_range]
  omega

theorem gyroscope_length (rot : List Quat) (dt : ℝ) (h : 1 ≤ rot.length) :
    (gyroscope rot dt).length = rot.length := by
  simp only [gyroscope]
  rw [List.length_map, List.length_append, List.length_zipWith,
    List.length_singleton, List.length_tail, List.length_map,
    List.length_dropLast]
  omega

theorem rollV_length (l : List Vec3) (i : ℤ) : (rollV l i).length = l.length := by
  simp [rollV]

theorem moving_average_sum_length (padded : List Vec3) (half : ℕ) :
    ∀ (js : List ℕ) (acc : List Vec3), acc.length = padded.length →
      (js.foldl (fun acc j =>
        List.zipWith v3add acc (rollV padded ((j : ℤ) - (half : ℤ)))) acc).length
        = padded.length := by
  intro js
  induction js with
  | nil => intro acc h; exact h
  | cons j rest ih =>
      intro acc h
      refine ih _ ?_
      rw [List.length_zipWith, rollV_length]
      omega

theorem moving_average_length (arr : List Vec3) (window : ℕ)
    (hw : 1 ≤ window) : (moving_average arr window).length = arr.length := by
  simp only [moving_average]
  rw [List.length_take, List.length_drop, List.length_map,
    moving_average_sum_length _ _ _ _ (by simp)]
  rw [List.length_map, List.length_range]
  have hhalf : (window - 1) / 2 ≤ window - 1 := Nat.div_le_self _ _
  omega

theorem delayOp_length (l : List Vec3) (d : ℕ) :
    (delayOp l d).length = l.length := by
  simp only [delayOp]
  rw [List.length_take, List.length_append, List.length_replicate]
  omega

theorem addNoiseChannel_length (noise : ℕ → Vec3) (bias : Vec3)
    (l : List Vec3) : (addNoiseChannel noise bias l).length = l.length := by
  simp [addNoiseChannel]

theorem imuPre_length (xs : List TransformM) (dt : ℝ)
    (s2s : Option Quat) (qp : Bool) (lpp : Option ℝ) (lpr : Option ℝ)
    (hN : 3 ≤ xs.length) :
    (imuPre xs dt s2s qp lpp lpr).length = xs.length := by
  simp only [imuPre]
  have h1 : (match s2s with
      | some q0 => xs.map (fun x => transform_mul ⟨q0, v3zero⟩ x)
      | none => xs).length = xs.length := by
    cases s2s <;> simp
  set xs1 := (match s2s with
    | some q0 => xs.map (fun x => transform_mul ⟨q0, v3zero⟩ x)
    | none => xs) with hxs1
  have h2 : (if qp then
      List.zipWith (fun (x : TransformM) p => TransformM.mk x.rot p) xs1
        (quasiPhysicalPos (xs1.map TransformM.pos) dt)
    else xs1).length = xs.length := by
    cases qp
    · simpa using h1
    · simp only [if_true]
      rw [List.length_zipWith, quasiPhysicalPos_length, List.length_map]
      omega
  set xs2 := (if qp then
      List.zipWith (fun (x : TransformM) p => TransformM.mk x.rot p) xs1
        (quasiPhysicalPos (xs1.map TransformM.pos) dt)
    else xs1) with hxs2
  have h3 : (match lpp with
      | some fc => List.zipWith (fun (x : TransformM) p => TransformM.mk x.rot p) xs2
          (butterworth (xs2.map TransformM.pos) (1 / dt) fc)
      | none => xs2).length = xs.length := by
    cases lpp
    · simpa using h2
    · simp only []
      rw [List.length_zipWith, butterworth_length, List.length_map]
      · omega
      · rw [List.length_map]
        omega
  set xs3 := (match lpp with
    | some fc => List.zipWith (fun (x : TransformM) p => TransformM.mk x.rot p) xs2
        (butterworth (xs2.map TransformM.pos) (1 / dt) fc)
    | none => xs2) with hxs3
  cases lpr
  · simpa using h3
  · simp only []
    rw [List.length_zipWith, quat_lowpassfilter_length, List.length_map]
    omega

theorem imuChannel_length (arr : List Vec3) (noisy : Bool)
    (smoothen_degree : Option ℕ) (delay : Option ℕ) (noise : ℕ → Vec3)
    (bias : Vec3) (hs : ∀ w, smoothen_degree = some w → 1 ≤ w) :
    (imuChannel arr noisy smoothen_degree delay noise bias).length
      = arr.length := by
  simp only [imuChannel]
  have h1 : (match smoothen_degree with
      | some w => moving_average arr w
      | none => arr).length = arr.length := by
    cases hsd : smoothen_degree with
    | none => rfl
    | some w =>
        simp only []
        exact moving_average_length arr w (hs w hsd)
  set a1 := (match smoothen_degree with
    | some w => moving_average arr w
    | none => arr) with ha1
  have h2 : ∀ d2 : Option ℕ, (match d2 with
      | some d => if 0 < d then delayOp a1 d else a1
      | none => a1).length = arr.length := by
    intro d2
    cases d2 with
    | none => exact h1
    | some d =>
        simp only []
        by_cases hd : 0 < d
        · rw [if_pos hd, delayOp_length]
          exact h1
        · rw [if_neg hd]
          exact h1
  cases noisy
  · simp only [Bool.false_eq_true, if_false]
    exact h2 _
  · simp only [if_true]
    rw [addNoiseChannel_length]
    exact h2 _

/-- **C10**: for every input trajectory of `N ≥ 3` frames and every
combination of the optional processing flags (sensor-to-segment rotation,
quasi-physical smoothing, position and orientation low-pass filters,
moving-average smoothing with an odd window `> 1` as the source asserts,
delay, noise), `imu` returns `acc` and `gyr` channels whose first-axis
length is exactly `N` — no stage shortens or lengthens the signal. -/
theorem C10_imu_length (xs : List TransformM) (gravity : Vec3) (dt : ℝ)
    (noisy : Bool) (smoothen_degree : Option ℕ) (delay : Option ℕ)
    (random_s2s_ori : Option Quat) (quasi_physical : Bool)
    (lpp : Option ℝ) (lpr : Option ℝ)
    (noiseA noiseG : ℕ → Vec3) (biasA biasG : Vec3)
    (hN : 3 ≤ xs.length)
    (hs : ∀ w, smoothen_degree = some w → w % 2 = 1 ∧ 1 < w) :
    (imu xs gravity dt noisy smoothen_degree delay random_s2s_ori
      quasi_physical lpp lpr noiseA noiseG biasA biasG).1.length
        = xs.length ∧
    (imu xs gravity dt noisy smoothen_degree delay random_s2s_ori
      quasi_physical lpp lpr noiseA noiseG biasA biasG).2.length
        = xs.length := by
  have hpre : (imuPre xs dt random_s2s_ori quasi_physical lpp lpr).length
      = xs.length := imuPre_length xs dt random_s2s_ori quasi_physical
    lpp lpr hN
  have hsw : ∀ w, smoothen_degree = some w → 1 ≤ w := by
    intro w hw
    have := (hs w hw).2
    omega
  constructor
  · simp only [imu]
    rw [imuChannel_length _ _ _ _ _ _ hsw, accelerometer_length]
    · rw [List.length_map, hpre]
    · rw [List.length_map, hpre]
      omega
    · rw [List.length_map, List.length_map]
  · simp only [imu]
    rw [imuChannel_length _ _ _ _ _ _ hsw, gyroscope_length]
    · rw [List.length_map, hpre]
    · rw [List.length_map, hpre]
      omega

/-- **C10**, witness: a concrete 3-frame trajectory with every optional
stage switched on (sensor-to-segment rotation, quasi-physical smoothing,
both low-pass filters, moving average with window 3, the default delay,
noise). -/
theorem C10_imu_length_witness :
    (imu [⟨qid, v3zero⟩, ⟨qid, v3zero⟩, ⟨qid, v3zero⟩] ⟨0, 0, 1⟩ 1 true
      (some 3) none (some qid) true (some 1) (some (1/2))
      (fun _ => v3zero) (fun _ => v3zero) v3zero v3zero).1.length = 3 ∧
    (imu [⟨qid, v3zero⟩, ⟨qid, v3zero⟩, ⟨qid, v3zero⟩] ⟨0, 0, 1⟩ 1 true
      (some 3) none (some qid) true (some 1) (some (1/2))
      (fun _ => v3zero) (fun _ => v3zero) v3zero v3zero).2.length = 3 := by
  have h := C10_imu_length [⟨qid, v3zero⟩, ⟨qid, v3zero⟩, ⟨qid, v3zero⟩]
    ⟨0, 0, 1⟩ 1 true (some 3) none (some qid) true (some 1) (some (1/2))
    (fun _ => v3zero) (fun _ => v3zero) v3zero v3zero (by norm_num)
    (by intro w hw; cases hw; exact ⟨rfl, by norm_num⟩)
  exact ⟨by simpa using h.1, by simpa using h.2⟩

end XXY
